import Mathlib

/-!
Verification of the TTRPG dice roller (`src/scripts/dice_roller.py`).

The development is a shallow embedding of the Python source: each Python
function is translated into a Lean definition of the same name (module
constants keep their upper-case names).  Randomness is modelled by an
explicit entropy stream `f : Nat → Nat` together with a draw counter: the
k-th call to `secrets.token_bytes(b)` (interpreted as a big-endian unsigned
integer, hence an arbitrary value below `256^b`) is modelled as
`f k % 256^b`, and the `secrets.randbelow(sides)` fallback as
`f k % sides`.  Every possible sequence of byte draws corresponds to some
stream `f`, so properties quantified over all `f` hold for every possible
run of the program.  Python `float` division is modelled by exact rational
division (no claim below depends on floating-point rounding).
-/

/-! ## Safety limits (module constants) -/

def MAX_DICE : Nat := 1000
def MAX_SIDES : Nat := 1000000000
def MAX_EXPLOSIONS : Nat := 100
def MAX_REROLLS : Nat := 10000
def MAX_RECURSION : Nat := 32

/-! ## CSPRNG.roll_die

`bytes_needed = (sides.bit_length() + 7) // 8` ;
`max_value = 1 <<< (bytes_needed * 8)` ;
`bound = (max_value // sides) * sides`. -/

/-- Python `int.bit_length()` for naturals: the number of binary digits,
`0` for `0`.  Defined with halving fuel (`n` itself always suffices) so
that it evaluates by kernel reduction. -/
def bitLenAux : Nat → Nat → Nat
  | 0, _ => 0
  | fuel + 1, n => if n = 0 then 0 else bitLenAux fuel (n / 2) + 1

def bit_length (n : Nat) : Nat := bitLenAux n n

def bytes_needed (sides : Nat) : Nat := (bit_length sides + 7) / 8

def max_value (sides : Nat) : Nat := 2 ^ (bytes_needed sides * 8)

def rollBound (sides : Nat) : Nat := (max_value sides / sides) * sides

/-- The rejection-sampling loop of `roll_die` (`while attempts < 10000`).
`k` is the entropy-draw counter; returns `(some outcome, next k)` on
acceptance, `(none, next k)` when all attempts were rejected. -/
def rollDieLoop (sides : Nat) (f : Nat → Nat) : Nat → Nat → Option Nat × Nat
  | k, 0 => (none, k)
  | k, fuel + 1 =>
    let v := f k % max_value sides
    if v < rollBound sides then (some (v % sides + 1), k + 1)
    else rollDieLoop sides f (k + 1) fuel

/-- `CSPRNG.roll_die` for a validated number of sides (the evaluator only
calls it with `1 ≤ sides ≤ MAX_SIDES`, enforced at parse time; the
guard-raising version is `roll_die_checked` below).  Returns the rolled
value and the next entropy index. -/
def roll_die (sides : Nat) (f : Nat → Nat) (k : Nat) : Nat × Nat :=
  if sides = 1 then (1, k)
  else
    match rollDieLoop sides f k 10000 with
    | (some r, k') => (r, k')
    | (none, k') => (f k' % sides + 1, k' + 1)

/-- `CSPRNG.roll_die` including its two guards (`sides < 1` raises
`ValueError`, `sides > MAX_SIDES` raises `LimitError`). -/
inductive RollDieErr
  | valueErr
  | limitErr

def roll_die_checked (sides : Nat) (f : Nat → Nat) (k : Nat) :
    Except RollDieErr (Nat × Nat) :=
  if sides < 1 then .error .valueErr
  else if MAX_SIDES < sides then .error .limitErr
  else .ok (roll_die sides f k)

/-! ## Tokenizer

`Tokenizer.__init__` strips the input (`text.strip()`) and scans it with
`TOKEN_PATTERN.finditer`; characters matching no alternative are skipped,
whitespace and comment matches are discarded, every other match becomes a
token that records its text and start offset in the stripped text.
The nine alternatives are tried in the pattern's order at each position
(Python alternation is leftmost-first; quantifiers are greedy), all
case-insensitively. -/

def isPySpace (c : Char) : Bool :=
  c = ' ' || c = '\t' || c = '\n' || c = '\r' || c = '\x0b' || c = '\x0c'

/-- Python `str.strip()` (ASCII whitespace; the development models ASCII
inputs). -/
def pyStrip (cs : List Char) : List Char :=
  ((cs.dropWhile isPySpace).reverse.dropWhile isPySpace).reverse

/-- Length of the maximal leading digit run (greedy `\d+`). -/
def digitRun : List Char → Nat
  | [] => 0
  | c :: rest => if c.isDigit then digitRun rest + 1 else 0

/-- Alternative 1: `\d+`. -/
def matchNumber (cs : List Char) : Option Nat :=
  if digitRun cs = 0 then none else some (digitRun cs)

/-- Alternative 2: `d[%F]|d\d+|d00` (the third branch is shadowed by the
second). -/
def matchDice : List Char → Option Nat
  | [] => none
  | c :: rest =>
    if c.toLower = 'd' then
      match rest with
      | [] => none
      | c2 :: _ =>
        if c2 = '%' || c2.toLower = 'f' then some 2
        else if digitRun rest = 0 then none else some (1 + digitRun rest)
    else none

/-- Alternative 3: `kh|kl|dh|dl`. -/
def matchKeepDrop : List Char → Option Nat
  | c :: c2 :: _ =>
    if (c.toLower = 'k' || c.toLower = 'd')
        && (c2.toLower = 'h' || c2.toLower = 'l') then some 2
    else none
  | _ => none

/-- Alternative 4: `ro?|!{1,2}p?` (greedy `o?`, `{1,2}`, `p?`). -/
def matchRerollExplode : List Char → Option Nat
  | [] => none
  | c :: rest =>
    if c.toLower = 'r' then
      match rest with
      | c2 :: _ => if c2.toLower = 'o' then some 2 else some 1
      | [] => some 1
    else if c = '!' then
      match rest with
      | c2 :: rest2 =>
        if c2 = '!' then
          match rest2 with
          | c3 :: _ => if c3.toLower = 'p' then some 3 else some 2
          | [] => some 2
        else if c2.toLower = 'p' then some 2
        else some 1
      | [] => some 1
    else none

/-- Alternative 5: `>=|<=|=|>|<`. -/
def matchComparator : List Char → Option Nat
  | [] => none
  | c :: rest =>
    if c = '>' || c = '<' then
      match rest with
      | c2 :: _ => if c2 = '=' then some 2 else some 1
      | [] => some 1
    else if c = '=' then some 1
    else none

/-- Alternative 6: `sa|sd`. -/
def matchSort : List Char → Option Nat
  | c :: c2 :: _ =>
    if c.toLower = 's' && (c2.toLower = 'a' || c2.toLower = 'd') then some 2
    else none
  | _ => none

/-- Alternative 7: `[+\-*?()]` single-character operators and parens. -/
def matchOperator : List Char → Option Nat
  | c :: _ =>
    if c = '+' || c = '-' || c = '*' || c = '/' || c = '(' || c = ')' then
      some 1
    else none
  | [] => none

/-- Length of the maximal run of non-newline characters (`[^\n]*`). -/
def commentRun : List Char → Nat
  | [] => 0
  | c :: rest => if c = '\n' then 0 else commentRun rest + 1

/-- Alternative 8: `#[^\n]*` line comments. -/
def matchComment : List Char → Option Nat
  | c :: rest => if c = '#' then some (1 + commentRun rest) else none
  | [] => none

/-- Length of the maximal leading whitespace run. -/
def spaceRun : List Char → Nat
  | [] => 0
  | c :: rest => if isPySpace c then spaceRun rest + 1 else 0

/-- Alternative 9: `\s+`. -/
def matchSpace (cs : List Char) : Option Nat :=
  if spaceRun cs = 0 then none else some (spaceRun cs)

/-- Try the pattern at the head of `cs`: returns the match length and
whether a token is emitted (`false` for comments and whitespace, which
`_tokenize` skips). -/
def matchAt (cs : List Char) : Option (Nat × Bool) :=
  match matchNumber cs with
  | some n => some (n, true)
  | none =>
  match matchDice cs with
  | some n => some (n, true)
  | none =>
  match matchKeepDrop cs with
  | some n => some (n, true)
  | none =>
  match matchRerollExplode cs with
  | some n => some (n, true)
  | none =>
  match matchComparator cs with
  | some n => some (n, true)
  | none =>
  match matchSort cs with
  | some n => some (n, true)
  | none =>
  match matchOperator cs with
  | some n => some (n, true)
  | none =>
  match matchComment cs with
  | some n => some (n, false)
  | none =>
  match matchSpace cs with
  | some n => some (n, false)
  | none => none

structure Token where
  text : List Char
  pos : Nat
deriving DecidableEq, Repr

/-- The `finditer` scan: at each offset, emit or skip the leftmost-first
match, or advance one character when nothing matches (unmatched characters
are not tokens).  A zero-length match is impossible for `TOKEN_PATTERN`;
that branch advances one character so the scan always progresses.  The
first argument is recursion fuel; every step consumes at least one
character, so fuel equal to the text length never runs out. -/
def tokenizeLoop : Nat → List Char → Nat → List Token
  | 0, _, _ => []
  | _ + 1, [], _ => []
  | fuel + 1, c :: rest, p =>
    match matchAt (c :: rest) with
    | some (0, _) => tokenizeLoop fuel rest (p + 1)
    | some (len + 1, emit) =>
      if emit then
        { text := (c :: rest).take (len + 1), pos := p }
          :: tokenizeLoop fuel ((c :: rest).drop (len + 1)) (p + (len + 1))
      else tokenizeLoop fuel ((c :: rest).drop (len + 1)) (p + (len + 1))
    | none => tokenizeLoop fuel rest (p + 1)

/-- `Tokenizer._tokenize` on the stripped text. -/
def tokenize (input : List Char) : List Token :=
  tokenizeLoop (pyStrip input).length (pyStrip input) 0

/-! ## AST, modifiers and error types -/

inductive CompOp
  | ceq
  | cgt
  | cge
  | clt
  | cle
deriving DecidableEq, Repr

/-- A reroll/explode/success condition.  Python stores `{'op': str,
'value': int | 'max'}`; `none` models the string `'max'` (only ever
present on an unresolved explosion condition). -/
structure Cond where
  op : CompOp
  value : Option Int
deriving DecidableEq, Repr

structure RerollSpec where
  once : Bool
  cond : Cond
deriving DecidableEq, Repr

structure ExplodeSpec where
  penetrating : Bool
  compound : Bool
  cond : Cond
deriving DecidableEq, Repr

inductive KeepType
  | kh
  | kl
  | dh
  | dl
deriving DecidableEq, Repr

structure KeepSpec where
  ktype : KeepType
  count : Nat
deriving DecidableEq, Repr

inductive SortDir
  | sa
  | sd
deriving DecidableEq, Repr

structure Mods where
  reroll : Option RerollSpec
  explode : Option ExplodeSpec
  keep : Option KeepSpec
  sort : Option SortDir
  comparator : Option Cond
deriving DecidableEq, Repr

def initMods : Mods :=
  { reroll := none, explode := none, keep := none, sort := none,
    comparator := none }

inductive DieType
  | dStd
  | dPct
  | dF
deriving DecidableEq, Repr

inductive BinOp
  | add
  | sub
  | mul
  | div
deriving DecidableEq, Repr

inductive Ast
  | number (n : Int)
  | binaryOp (op : BinOp) (left right : Ast)
  | negOp (operand : Ast)
  | dice (count : Nat) (sides : Nat) (dieType : DieType) (mods : Mods)
deriving DecidableEq, Repr

/-- The exception taxonomy: `ParseError(message, position, input)`,
`SemanticError`, `LimitError`, and bare `DiceError` (raised for division
by zero). -/
inductive DiceErr
  | parseE (msg : String) (pos : Nat) (input : List Char)
  | semanticE (msg : String)
  | limitE (msg : String)
  | diceE (msg : String)
deriving DecidableEq, Repr

/-! ## Parser helpers -/

def lowerStr (s : List Char) : List Char := s.map Char.toLower

/-- Python `str.isdigit()` (ASCII model). -/
def isDigitStr (s : List Char) : Bool := !s.isEmpty && s.all Char.isDigit

/-- Python `int()` on a digit string. -/
def natOfDigits (s : List Char) : Nat :=
  s.foldl (fun acc c => acc * 10 + (c.toNat - 48)) 0

/-- Python `int()` on a token text (`-` handling mirrors the dead
`token.startswith('-')` branch of `parse_primary`). -/
def intOfToken (s : List Char) : Int :=
  match s with
  | '-' :: rest => -(natOfDigits rest : Int)
  | _ => (natOfDigits s : Int)

/-- `token.lower().startswith('d')`. -/
def startsWithD (s : List Char) : Bool :=
  match s with
  | c :: _ => c.toLower = 'd'
  | [] => false

def isComparatorText (s : List Char) : Bool :=
  s = ['>', '='] || s = ['<', '='] || s = ['='] || s = ['>'] || s = ['<']

def compOpOfText (s : List Char) : CompOp :=
  if s = ['>', '='] then .cge
  else if s = ['<', '='] then .cle
  else if s = ['='] then .ceq
  else if s = ['>'] then .cgt
  else .clt

def compOpText : CompOp → List Char
  | .cge => ['>', '=']
  | .cle => ['<', '=']
  | .ceq => ['=']
  | .cgt => ['>']
  | .clt => ['<']

def keepTypeOfText (s : List Char) : KeepType :=
  if s = ['k', 'h'] then .kh
  else if s = ['k', 'l'] then .kl
  else if s = ['d', 'h'] then .dh
  else .dl

/-- Parse result: value plus the tokenizer position after the call. -/
def PRes (α : Type) : Type := Except DiceErr (α × Nat)

/-- The error returned if parser recursion fuel were ever exhausted.
`parse` supplies fuel exceeding any possible recursion depth, so this is
unreachable; it still records the stripped input like every parse
error. -/
def fuelError (txt : List Char) : DiceErr :=
  .parseE "Internal recursion bound exceeded" txt.length txt

/-! ## Parser -/

/-- `DiceParser.parse_condition`. -/
def parse_condition (txt : List Char) (ts : List Token) (pos : Nat)
    (defaultOp : CompOp) (defaultValue : Option Int) : PRes Cond :=
  match ts[pos]? with
  | some tk =>
    if isComparatorText tk.text then
      match ts[pos + 1]? with
      | some tk2 =>
        if isDigitStr tk2.text then
          .ok ({ op := compOpOfText tk.text,
                 value := some (natOfDigits tk2.text) }, pos + 2)
        else
          .error (.parseE ("Expected number after operator \x27"
            ++ String.mk tk.text ++ "\x27") tk2.pos txt)
      | none =>
        .error (.parseE ("Expected number after operator \x27"
          ++ String.mk tk.text ++ "\x27") txt.length txt)
    else if isDigitStr tk.text then
      .ok ({ op := .ceq, value := some (natOfDigits tk.text) }, pos + 1)
    else
      .ok ({ op := defaultOp, value := defaultValue }, pos)
  | none =>
    .ok ({ op := defaultOp, value := defaultValue }, pos)

/-- `DiceParser.parse_dice_modifiers`: the modifier loop, one recursive
call per consumed modifier; a comparator ends the loop.  Fuel bounds the
number of iterations; each iteration consumes at least one token, so the
fuel supplied by `parse` never runs out. -/
def parse_dice_modifiers (txt : List Char) (ts : List Token) :
    Nat → Nat → Mods → PRes Mods
  | 0, pos, mods => .ok (mods, pos)
  | fuel + 1, pos, mods =>
    match ts[pos]? with
    | none => .ok (mods, pos)
    | some tk =>
      let tl := lowerStr tk.text
      if tl = ['r'] || tl = ['r', 'o'] then
        match parse_condition txt ts (pos + 1) .ceq (some 1) with
        | .error e => .error e
        | .ok (cond, p) =>
          parse_dice_modifiers txt ts fuel p
            { mods with reroll := some { once := tl == ['r', 'o'],
                                         cond := cond } }
      else if tl = ['!'] || tl = ['!', '!'] || tl = ['!', 'p'] then
        match parse_condition txt ts (pos + 1) .cge none with
        | .error e => .error e
        | .ok (cond, p) =>
          parse_dice_modifiers txt ts fuel p
            { mods with explode := some {
                  penetrating := tl.contains 'p',
                  compound := tk.text.length == 2 && tk.text == ['!', '!'],
                  cond := cond } }
      else if tl = ['k', 'h'] || tl = ['k', 'l'] || tl = ['d', 'h']
          || tl = ['d', 'l'] then
        match ts[pos + 1]? with
        | none =>
          .error (.parseE ("Expected number after \x27" ++ String.mk tl
            ++ "\x27") txt.length txt)
        | some tk2 =>
          if isDigitStr tk2.text then
            parse_dice_modifiers txt ts fuel (pos + 2)
              { mods with keep := some { ktype := keepTypeOfText tl,
                                         count := natOfDigits tk2.text } }
          else
            .error (.parseE ("Expected number after \x27" ++ String.mk tl
              ++ "\x27") tk2.pos txt)
      else if tl = ['s', 'a'] || tl = ['s', 'd'] then
        parse_dice_modifiers txt ts fuel (pos + 1)
          { mods with sort := some (if tl = ['s', 'a'] then .sa else .sd) }
      else if isComparatorText tl then
        match ts[pos + 1]? with
        | none =>
          .error (.parseE ("Expected number after comparator \x27"
            ++ String.mk tk.text ++ "\x27") txt.length txt)
        | some tk2 =>
          if isDigitStr tk2.text then
            .ok ({ mods with comparator := some {
                      op := compOpOfText tk.text,
                      value := some (natOfDigits tk2.text) } }, pos + 2)
          else
            .error (.parseE ("Expected number after comparator \x27"
              ++ String.mk tk.text ++ "\x27") tk2.pos txt)
      else .ok (mods, pos)

/-- The body of `DiceParser.parse_dice` after the die count has been
read: consume the die token, validate sides and limits, parse modifiers.
`dpos` points at the die token. -/
def parse_dice_tail (txt : List Char) (ts : List Token) (fuel countN : Nat)
    (dpos : Nat) : PRes Ast :=
  match ts[dpos]? with
  | none => .error (.parseE "Unexpected end of input" txt.length txt)
  | some dieTk =>
    if startsWithD dieTk.text then
      let sidesStr := (lowerStr dieTk.text).drop 1
      let parsedSides : Except DiceErr (Nat × DieType) :=
        if sidesStr = ['%'] || sidesStr = ['0', '0'] then .ok (100, .dPct)
        else if sidesStr = ['f'] || sidesStr = ['f', '.', '2'] then
          .ok (3, .dF)
        else if isDigitStr sidesStr then .ok (natOfDigits sidesStr, .dStd)
        else .error (.parseE ("Invalid dice sides \x27"
          ++ String.mk sidesStr ++ "\x27") dieTk.pos txt)
      match parsedSides with
      | .error e => .error e
      | .ok (sides, dt) =>
        if MAX_DICE < countN then
          .error (.limitE "Cannot roll more than 1000 dice per term")
        else if MAX_SIDES < sides then
          .error (.limitE "Die cannot have more than 1000000000 sides")
        else if countN < 1 then
          .error (.semanticE "Must roll at least 1 die")
        else if sides < 1 then
          .error (.semanticE "Die must have at least 1 side")
        else
          match parse_dice_modifiers txt ts fuel (dpos + 1) initMods with
          | .error e => .error e
          | .ok (mods, p) => .ok (.dice countN sides dt mods, p)
    else
      .error (.parseE ("Expected dice notation, got \x27"
        ++ String.mk dieTk.text ++ "\x27") dieTk.pos txt)

/-- `DiceParser.parse_dice`: optional leading count, then the die term. -/
def parse_dice (txt : List Char) (ts : List Token) (fuel : Nat)
    (pos : Nat) : PRes Ast :=
  match ts[pos]? with
  | some tk =>
    if isDigitStr tk.text then
      parse_dice_tail txt ts fuel (natOfDigits tk.text) (pos + 1)
    else parse_dice_tail txt ts fuel 1 pos
  | none => parse_dice_tail txt ts fuel 1 pos

/-- `DiceParser.parse_primary`: numbers and dice terms. -/
def parse_primary (txt : List Char) (ts : List Token) (fuel : Nat)
    (pos : Nat) : PRes Ast :=
  match ts[pos]? with
  | none => .error (.parseE "Unexpected end of expression" txt.length txt)
  | some tk =>
    if startsWithD tk.text
        || (isDigitStr tk.text
            && (match ts[pos + 1]? with
                | some tk2 => startsWithD tk2.text
                | none => false)) then
      parse_dice txt ts fuel pos
    else if isDigitStr tk.text
        || (match tk.text with
            | '-' :: rest => isDigitStr rest
            | _ => false) then
      .ok (.number (intOfToken tk.text), pos + 1)
    else
      .error (.parseE ("Unexpected token \x27" ++ String.mk tk.text
        ++ "\x27") tk.pos txt)

mutual

/-- `DiceParser.parse_expression`: addition and subtraction.  Fuel
decreases on every call; `parse` supplies more than any possible
recursion depth, so the zero branch is unreachable. -/
def parse_expression (txt : List Char) (ts : List Token) :
    Nat → Nat → Nat → PRes Ast
  | 0, _, _ => .error (fuelError txt)
  | fuel + 1, pos, depth =>
    match parse_term txt ts fuel pos depth with
    | .error e => .error e
    | .ok (left, p) => parse_expr_loop txt ts fuel left p depth
termination_by structural fuel => fuel

/-- The `while` loop of `parse_expression`. -/
def parse_expr_loop (txt : List Char) (ts : List Token) :
    Nat → Ast → Nat → Nat → PRes Ast
  | 0, _, _, _ => .error (fuelError txt)
  | fuel + 1, left, pos, depth =>
    match ts[pos]? with
    | some tk =>
      if tk.text = ['+'] || tk.text = ['-'] then
        match parse_term txt ts fuel (pos + 1) depth with
        | .error e => .error e
        | .ok (right, p) =>
          parse_expr_loop txt ts fuel
            (.binaryOp (if tk.text = ['+'] then .add else .sub) left right)
            p depth
      else .ok (left, pos)
    | none => .ok (left, pos)
termination_by structural fuel => fuel

/-- `DiceParser.parse_term`: multiplication and division. -/
def parse_term (txt : List Char) (ts : List Token) :
    Nat → Nat → Nat → PRes Ast
  | 0, _, _ => .error (fuelError txt)
  | fuel + 1, pos, depth =>
    match parse_factor txt ts fuel pos depth with
    | .error e => .error e
    | .ok (left, p) => parse_term_loop txt ts fuel left p depth
termination_by structural fuel => fuel

/-- The `while` loop of `parse_term`. -/
def parse_term_loop (txt : List Char) (ts : List Token) :
    Nat → Ast → Nat → Nat → PRes Ast
  | 0, _, _, _ => .error (fuelError txt)
  | fuel + 1, left, pos, depth =>
    match ts[pos]? with
    | some tk =>
      if tk.text = ['*'] || tk.text = ['/'] then
        match parse_factor txt ts fuel (pos + 1) depth with
        | .error e => .error e
        | .ok (right, p) =>
          parse_term_loop txt ts fuel
            (.binaryOp (if tk.text = ['*'] then .mul else .div) left right)
            p depth
      else .ok (left, pos)
    | none => .ok (left, pos)
termination_by structural fuel => fuel

/-- `DiceParser.parse_factor`: unary minus and parentheses.  `depth` is
the parser’s `recursion_depth` counter. -/
def parse_factor (txt : List Char) (ts : List Token) :
    Nat → Nat → Nat → PRes Ast
  | 0, _, _ => .error (fuelError txt)
  | fuel + 1, pos, depth =>
    match ts[pos]? with
    | some tk =>
      if tk.text = ['-'] then
        match parse_factor txt ts fuel (pos + 1) depth with
        | .error e => .error e
        | .ok (operand, p) => .ok (.negOp operand, p)
      else if tk.text = ['('] then
        if MAX_RECURSION < depth + 1 then
          .error (.limitE "Exceeded maximum recursion depth of 32")
        else
          match parse_expression txt ts fuel (pos + 1) (depth + 1) with
          | .error e => .error e
          | .ok (expr, p) =>
            match ts[p]? with
            | none =>
              .error (.parseE "Expected \x27)\x27 but reached end of input"
                txt.length txt)
            | some tk2 =>
              if lowerStr tk2.text = [')'] then .ok (expr, p + 1)
              else
                .error (.parseE ("Expected \x27)\x27 but got \x27"
                  ++ String.mk tk2.text ++ "\x27") tk2.pos txt)
      else parse_primary txt ts fuel pos
    | none => parse_primary txt ts fuel pos
termination_by structural fuel => fuel

end

/-- `DiceParser.parse`: parse a complete expression, rejecting leftover
tokens.  The fuel bound `16 * (token count + 1)` exceeds the recursion
depth of the descent on any token list: every call either advances the
position or moves down the finite expression/term/factor/primary chain. -/
def parse (input : List Char) : Except DiceErr Ast :=
  let txt := pyStrip input
  let ts := tokenizeLoop txt.length txt 0
  match ts with
  | [] => .error (.parseE "Empty expression" 0 txt)
  | _ :: _ =>
    match parse_expression txt ts (16 * (ts.length + 1)) 0 0 with
    | .error e => .error e
    | .ok (ast, p) =>
      match ts[p]? with
      | some tk =>
        .error (.parseE ("Unexpected token \x27" ++ String.mk tk.text
          ++ "\x27 after expression") tk.pos txt)
      | none => .ok ast

/-! ## Evaluator data -/

structure DieRoll where
  value : Int
  rerolls : List Int
  explodes : List Int
  success : Option Bool
deriving DecidableEq, Repr

structure DiceTrace where
  term : List Char
  rolls : List DieRoll
  keptValues : Option (List Int)
  sum : Option Int
  threshold : Option (List Char)
  successes : Option Int
deriving DecidableEq, Repr

/-! ## Evaluator -/

/-- `DiceEvaluator._check_condition`.  A condition whose value is still
the string `max` is unreachable here: reroll and success conditions are
parsed with an integer value and explosion conditions are resolved before
any check (`=` against `max` would be `False` in Python, which the `none`
branch mirrors). -/
def _check_condition (value : Int) (c : Cond) : Bool :=
  match c.value with
  | none => false
  | some threshold =>
    match c.op with
    | .ceq => value == threshold
    | .cgt => threshold < value
    | .cge => threshold ≤ value
    | .clt => value < threshold
    | .cle => value ≤ threshold

def natChars (n : Nat) : List Char := Nat.toDigits 10 n

def intChars (i : Int) : List Char :=
  if i < 0 then '-' :: natChars i.natAbs else natChars i.toNat

/-- `DiceEvaluator._format_condition`. -/
def _format_condition (c : Cond) : List Char :=
  match c.op, c.value with
  | .ceq, some v => intChars v
  | op, some v => compOpText op ++ intChars v
  | op, none => compOpText op ++ ['m', 'a', 'x']

/-- One die roll inside `_eval_dice`/`_apply_rerolls`/`_apply_explosions`:
FATE dice are `roll_die(3) - 2`, everything else `roll_die(sides)`. -/
def rollValue (sides : Nat) (dt : DieType) (f : Nat → Nat) (k : Nat) :
    Int × Nat :=
  if dt = .dF then
    let (v, k') := roll_die 3 f k
    ((v : Int) - 2, k')
  else
    let (v, k') := roll_die sides f k
    ((v : Int), k')

/-- The per-die `while` loop of `_apply_rerolls` (guard
`reroll_count < MAX_REROLLS` becomes the fuel, which starts at
`MAX_REROLLS`); returns the final value, the appended history and the
next entropy index. -/
def reroll_loop (cond : Cond) (once : Bool) (sides : Nat) (dt : DieType)
    (f : Nat → Nat) : Nat → Int → List Int → Nat → Int × List Int × Nat
  | k, v, hist, 0 => (v, hist, k)
  | k, v, hist, fuel + 1 =>
    if _check_condition v cond then
      let (nv, k') := rollValue sides dt f k
      if once then (nv, hist ++ [v], k')
      else reroll_loop cond once sides dt f k' nv (hist ++ [v]) fuel
    else (v, hist, k)

/-- `_apply_rerolls`, one die: run the loop, then raise `LimitError` when
`reroll_count >= MAX_REROLLS`. -/
def _apply_rerolls_die (spec : RerollSpec) (sides : Nat) (dt : DieType)
    (f : Nat → Nat) (r : DieRoll) (k : Nat) :
    Except DiceErr (DieRoll × Nat) :=
  let (v, hist, k') :=
    reroll_loop spec.cond spec.once sides dt f k r.value [] MAX_REROLLS
  if MAX_REROLLS ≤ hist.length then
    .error (.limitE "Exceeded maximum rerolls of 10000")
  else .ok ({ r with value := v, rerolls := r.rerolls ++ hist }, k')

/-- `DiceEvaluator._apply_rerolls` over the roll list. -/
def _apply_rerolls (spec : RerollSpec) (sides : Nat) (dt : DieType)
    (f : Nat → Nat) : List DieRoll → Nat → Except DiceErr (List DieRoll × Nat)
  | [], k => .ok ([], k)
  | r :: rest, k =>
    match _apply_rerolls_die spec sides dt f r k with
    | .error e => .error e
    | .ok (r', k') =>
      match _apply_rerolls spec sides dt f rest k' with
      | .error e => .error e
      | .ok (rest', k'') => .ok (r' :: rest', k'')

/-- Resolution of a `max` explosion threshold (`_apply_explosions` mutates
`condition['value']` in place; the resolved condition is therefore also
the one later rendered in the term string). -/
def resolveCond (c : Cond) (sides : Nat) (dt : DieType) : Cond :=
  match c.value with
  | none => { c with value := some (if dt = .dF then 1 else (sides : Int)) }
  | some _ => c

/-- The per-die `while` loop of `_apply_explosions`; accumulates the
appended explosion values. -/
def explode_loop (cond : Cond) (pen : Bool) (sides : Nat) (dt : DieType)
    (f : Nat → Nat) : Nat → Int → List Int → Nat → List Int × Nat
  | k, _, acc, 0 => (acc, k)
  | k, current, acc, fuel + 1 =>
    if _check_condition current cond then
      let (nv0, k') := rollValue sides dt f k
      let nv := if pen && 0 < nv0 then nv0 - 1 else nv0
      explode_loop cond pen sides dt f k' nv (acc ++ [nv]) fuel
    else (acc, k)

/-- `_apply_explosions`, one die (note: `explode_spec['compound']` is
never read by `_apply_explosions`). -/
def _apply_explosions_die (cond : Cond) (pen : Bool) (sides : Nat)
    (dt : DieType) (f : Nat → Nat) (r : DieRoll) (k : Nat) :
    Except DiceErr (DieRoll × Nat) :=
  let (acc, k') := explode_loop cond pen sides dt f k r.value [] MAX_EXPLOSIONS
  if MAX_EXPLOSIONS ≤ acc.length then
    .error (.limitE "Exceeded maximum explosions of 100")
  else .ok ({ r with explodes := r.explodes ++ acc }, k')

/-- `DiceEvaluator._apply_explosions`: resolve the `max` threshold once,
then explode each die in order. -/
def _apply_explosions_list (cond : Cond) (pen : Bool) (sides : Nat)
    (dt : DieType) (f : Nat → Nat) :
    List DieRoll → Nat → Except DiceErr (List DieRoll × Nat)
  | [], k => .ok ([], k)
  | r :: rest, k =>
    match _apply_explosions_die cond pen sides dt f r k with
    | .error e => .error e
    | .ok (r', k') =>
      match _apply_explosions_list cond pen sides dt f rest k' with
      | .error e => .error e
      | .ok (rest', k'') => .ok (r' :: rest', k'')

def _apply_explosions (spec : ExplodeSpec) (sides : Nat) (dt : DieType)
    (f : Nat → Nat) (rolls : List DieRoll) (k : Nat) :
    Except DiceErr (List DieRoll × Nat) :=
  _apply_explosions_list (resolveCond spec.cond sides dt) spec.penetrating
    sides dt f rolls k

/-- A die's total value: current value plus the sum of its explosion
increments (used by keep/drop). -/
def dieTotal (r : DieRoll) : Int := r.value + r.explodes.sum

/-- Python `lst[-c:]` for `c ≥ 0`: the whole list when `c = 0`
(since `-0 == 0`), otherwise the last `c` elements. -/
def pySliceLastN (l : List Int) (c : Nat) : List Int :=
  if c = 0 then l else l.drop (l.length - c)

/-- Python `lst[:-c]` for `c ≥ 0`: the empty list when `c = 0`
(since `lst[:0] == []`), otherwise all but the last `c` elements. -/
def pySliceDropLastN (l : List Int) (c : Nat) : List Int :=
  if c = 0 then [] else l.take (l.length - c)

/-- `DiceEvaluator._apply_keep_drop`. -/
def _apply_keep_drop (rolls : List DieRoll) (spec : KeepSpec) :
    Except DiceErr (List Int) :=
  let all_values := rolls.map dieTotal
  if all_values.length < spec.count then
    .error (.semanticE ("Cannot keep/drop " ++ toString spec.count
      ++ " from " ++ toString all_values.length ++ " dice"))
  else
    let sorted_values := all_values.insertionSort (fun a b => b ≤ a)
    match spec.ktype with
    | .kh => .ok (sorted_values.take spec.count)
    | .kl => .ok (pySliceLastN sorted_values spec.count)
    | .dh => .ok (sorted_values.drop spec.count)
    | .dl => .ok (pySliceDropLastN sorted_values spec.count)

/-- `DiceEvaluator._count_successes`: marks per-die success flags and
returns the count over the kept values (or all face values). -/
def _count_successes (rolls : List DieRoll) (comparator : Cond)
    (kept_values : Option (List Int)) : List DieRoll × Int :=
  let values : List Int := match kept_values with
    | some ks => ks
    | none => rolls.map (fun r => r.value)
  let marked := rolls.enum.map (fun ir =>
    match ir with
    | (i, r) =>
      if kept_values.isNone || i < values.length then
        { r with success := some (_check_condition r.value comparator) }
      else r)
  (marked, (values.countP (fun v => _check_condition v comparator) : Int))

/-- The display sort (`sa`/`sd`): a stable sort on the die values, like
Python `list.sort(key=...)`. -/
def applySortRolls (sortDir : Option SortDir) (rolls : List DieRoll) :
    List DieRoll :=
  match sortDir with
  | none => rolls
  | some .sa => rolls.insertionSort (fun a b => a.value ≤ b.value)
  | some .sd => rolls.insertionSort (fun a b => b.value ≤ a.value)

def keepTypeChars : KeepType → List Char
  | .kh => ['k', 'h']
  | .kl => ['k', 'l']
  | .dh => ['d', 'h']
  | .dl => ['d', 'l']

def dieSidesChars (sides : Nat) : DieType → List Char
  | .dStd => natChars sides
  | .dPct => ['%']
  | .dF => ['F']

def condValChars : Option Int → List Char
  | some v => intChars v
  | none => ['m', 'a', 'x']

/-- The term string built in `_eval_dice` (reroll, explode, keep parts;
sort and comparator are excluded there, the comparator is appended
separately).  The explosion condition has been resolved by the time the
string is built, so its value is never `max`. -/
def term_chars (count sides : Nat) (dt : DieType) (mods : Mods) :
    List Char :=
  let base := natChars count ++ ['d'] ++ dieSidesChars sides dt
  let withR := match mods.reroll with
    | some spec => base ++ ['r'] ++ (if spec.once then ['o'] else [])
        ++ _format_condition spec.cond
    | none => base
  let withE := match mods.explode with
    | some spec =>
      let rc := resolveCond spec.cond sides dt
      withR ++ ['!'] ++ (if spec.compound then ['!'] else [])
        ++ (if spec.penetrating then ['p'] else [])
        ++ (if rc.value ≠ none then _format_condition rc else [])
    | none => withR
  match mods.keep with
  | some ks => withE ++ keepTypeChars ks.ktype ++ natChars ks.count
  | none => withE

/-- The initial roll loop of `_eval_dice`. -/
def rollN (sides : Nat) (dt : DieType) (f : Nat → Nat) :
    Nat → Nat → List DieRoll × Nat
  | k, 0 => ([], k)
  | k, n + 1 =>
    let (v, k') := rollValue sides dt f k
    let (rest, k'') := rollN sides dt f k' n
    ({ value := v, rerolls := [], explodes := [], success := none } :: rest,
     k'')

/-- Rolls, rerolls, explosions and keep/drop of `_eval_dice` (everything
up to the display sort). -/
def rolls_and_kept (count sides : Nat) (dt : DieType) (mods : Mods)
    (f : Nat → Nat) (k : Nat) :
    Except DiceErr (List DieRoll × Option (List Int) × Nat) :=
  let (rolls0, k0) := rollN sides dt f k count
  let step1 : Except DiceErr (List DieRoll × Nat) :=
    match mods.reroll with
    | some spec => _apply_rerolls spec sides dt f rolls0 k0
    | none => .ok (rolls0, k0)
  match step1 with
  | .error e => .error e
  | .ok (rolls1, k1) =>
    let step2 : Except DiceErr (List DieRoll × Nat) :=
      match mods.explode with
      | some spec => _apply_explosions spec sides dt f rolls1 k1
      | none => .ok (rolls1, k1)
    match step2 with
    | .error e => .error e
    | .ok (rolls2, k2) =>
      match mods.keep with
      | some ks =>
        match _apply_keep_drop rolls2 ks with
        | .error e => .error e
        | .ok kv => .ok (rolls2, some kv, k2)
      | none => .ok (rolls2, none, k2)

/-- `DiceEvaluator._eval_dice`: returns the term's numeric value, its
trace, and the next entropy index. -/
def _eval_dice (count sides : Nat) (dt : DieType) (mods : Mods)
    (f : Nat → Nat) (k : Nat) : Except DiceErr (Int × DiceTrace × Nat) :=
  match rolls_and_kept count sides dt mods f k with
  | .error e => .error e
  | .ok (rolls2, kept, k2) =>
    let rolls3 := applySortRolls mods.sort rolls2
    let term := term_chars count sides dt mods
    match mods.comparator with
    | some comp =>
      let (marked, successes) := _count_successes rolls3 comp kept
      let thresholdC := compOpText comp.op ++ condValChars comp.value
      .ok (successes,
           { term := term ++ thresholdC, rolls := marked,
             keptValues := none, sum := none,
             threshold := some thresholdC, successes := some successes },
           k2)
    | none =>
      match kept with
      | some kv =>
        .ok (kv.sum,
             { term := term, rolls := rolls3, keptValues := some kv,
               sum := some kv.sum, threshold := none, successes := none },
             k2)
      | none =>
        let baseVals := rolls3.map (·.value)
        let values := if dt = .dF then
            baseVals ++ (rolls3.map (·.explodes)).flatten
          else baseVals
        .ok (values.sum,
             { term := term, rolls := rolls3, keptValues := none,
               sum := some values.sum, threshold := none,
               successes := none },
             k2)

/-- `DiceEvaluator._eval_node`: recursive AST evaluation, threading the
entropy index and the accumulated trace list.  Python divides with `/`
(float division), modelled as exact rational division; division by zero
raises the bare `DiceError`. -/
def _eval_node (f : Nat → Nat) : Ast → Nat → List DiceTrace →
    Except DiceErr (ℚ × Nat × List DiceTrace)
  | .number n, k, traces => .ok ((n : ℚ), k, traces)
  | .binaryOp op l r, k, traces =>
    match _eval_node f l k traces with
    | .error e => .error e
    | .ok (lv, k1, tr1) =>
      match _eval_node f r k1 tr1 with
      | .error e => .error e
      | .ok (rv, k2, tr2) =>
        match op with
        | .add => .ok (lv + rv, k2, tr2)
        | .sub => .ok (lv - rv, k2, tr2)
        | .mul => .ok (lv * rv, k2, tr2)
        | .div =>
          if rv = 0 then .error (.diceE "Division by zero")
          else .ok (lv / rv, k2, tr2)
  | .negOp a, k, traces =>
    match _eval_node f a k traces with
    | .error e => .error e
    | .ok (v, k1, tr1) => .ok (-v, k1, tr1)
  | .dice count sides dt mods, k, traces =>
    match _eval_dice count sides dt mods f k with
    | .error e => .error e
    | .ok (v, tr, k1) => .ok ((v : ℚ), k1, traces ++ [tr])

/-! ## Entry point `roll_dice` -/

structure ErrorInfo where
  type : String
  message : String
  position : Option Nat
  input : List Char
deriving DecidableEq, Repr

structure RollResult where
  ok : Bool
  final : Option ℚ
  type : Option String
  trace : Option (List DiceTrace)
  error : Option ErrorInfo
deriving DecidableEq, Repr

/-- The `except` clauses of `roll_dice`: `ParseError` keeps its recorded
position and input (the tokenizer's stripped text); `SemanticError`,
`LimitError` and bare `DiceError` report `type(e).__name__` with the
untouched original input.  The final `except Exception` (type
`RuntimeError`) is unreachable in this embedding: no other exception
exists. -/
def errorResult (expression : List Char) : DiceErr → ErrorInfo
  | .parseE msg pos input =>
    { type := "ParseError", message := msg, position := some pos,
      input := input }
  | .semanticE msg =>
    { type := "SemanticError", message := msg, position := none,
      input := expression }
  | .limitE msg =>
    { type := "LimitError", message := msg, position := none,
      input := expression }
  | .diceE msg =>
    { type := "DiceError", message := msg, position := none,
      input := expression }

/-- Parse then evaluate (the `try` body of `roll_dice`). -/
def run_pipeline (expression : String) (f : Nat → Nat) :
    Except DiceErr (ℚ × Nat × List DiceTrace) :=
  match parse expression.data with
  | .error e => .error e
  | .ok ast => _eval_node f ast 0 []

/-- `roll_dice`: the single entry point. -/
def roll_dice (expression : String) (f : Nat → Nat) : RollResult :=
  match run_pipeline expression f with
  | .error e =>
    { ok := false, final := none, type := none, trace := none,
      error := some (errorResult expression.data e) }
  | .ok (result, _, traces) =>
    { ok := true, final := some result,
      type := some (if traces.any (fun t => t.successes.isSome)
        then "success_count" else "sum"),
      trace := some traces, error := none }


/-! ## Auxiliary definitions for the claims -/

/-- Equality of `Except` results is decidable (needed to evaluate the
embedding at concrete inputs). -/
instance exceptDecEq {ε α : Type} [DecidableEq ε] [DecidableEq α] :
    DecidableEq (Except ε α) := fun a b =>
  match a, b with
  | .ok x, .ok y =>
    if h : x = y then .isTrue (by rw [h])
    else .isFalse (fun hc => by cases hc; exact h rfl)
  | .error x, .error y =>
    if h : x = y then .isTrue (by rw [h])
    else .isFalse (fun hc => by cases hc; exact h rfl)
  | .ok _, .error _ => .isFalse (fun hc => by cases hc)
  | .error _, .ok _ => .isFalse (fun hc => by cases hc)

/-- The die domain of §3 of the specification: `[1, sides]` for standard
and percentile dice, `{-1, 0, 1}` for FATE dice. -/
def inDomain (dt : DieType) (sides : Nat) (v : Int) : Prop :=
  match dt with
  | .dF => v = -1 ∨ v = 0 ∨ v = 1
  | _ => 1 ≤ v ∧ v ≤ (sides : Int)

/-- An entropy stream of zero bytes: every die rolls its lowest face. -/
def constZeroStream : Nat → Nat := fun _ => 0

/-- Entropy forcing a d2 to roll 2 once and then 1. -/
def twoThenOneStream : Nat → Nat := fun k => if k = 0 then 1 else 0

/-- Two fixed die outcomes 1 and 2, as fresh `DieRoll`s. -/
def dieRollsOneTwo : List DieRoll :=
  [{ value := 1, rerolls := [], explodes := [], success := none },
   { value := 2, rerolls := [], explodes := [], success := none }]

/-! ## Helper lemmas and claim theorems -/

theorem getElem?_some_lt {α : Type} {l : List α} {n : Nat} {a : α}
    (h : l[n]? = some a) : n < l.length := by
  by_contra hn
  rw [List.getElem?_eq_none (by omega)] at h
  exact Option.noConfusion h

theorem roll_die_checked_eq (sides : Nat) (f : Nat → Nat) (k : Nat)
    (h1 : 1 ≤ sides) (h2 : sides ≤ MAX_SIDES) :
    roll_die_checked sides f k = .ok (roll_die sides f k) := by
  unfold roll_die_checked
  rw [if_neg (by omega), if_neg (by omega)]

/-! Basic facts about the sampling bound. -/

theorem lt_two_pow_bitLenAux (fuel : Nat) :
    ∀ n : Nat, n ≤ fuel → n < 2 ^ bitLenAux fuel n := by
  induction fuel with
  | zero =>
    intro n hn
    unfold bitLenAux
    omega
  | succ fuel ih =>
    intro n hn
    unfold bitLenAux
    by_cases h0 : n = 0
    · simp [h0]
    · rw [if_neg h0]
      have hhalf : n / 2 ≤ fuel := by omega
      have := ih (n / 2) hhalf
      have hpow : 2 ^ (bitLenAux fuel (n / 2) + 1)
          = 2 * 2 ^ bitLenAux fuel (n / 2) := by ring
      omega

theorem lt_two_pow_bit_length (n : Nat) : n < 2 ^ bit_length n :=
  lt_two_pow_bitLenAux n n (Nat.le_refl n)

theorem bit_length_le_eight_mul_bytes_needed (sides : Nat) :
    bit_length sides ≤ bytes_needed sides * 8 := by
  unfold bytes_needed
  omega

theorem sides_le_max_value (sides : Nat) : sides < max_value sides := by
  calc sides < 2 ^ bit_length sides := lt_two_pow_bit_length sides
    _ ≤ 2 ^ (bytes_needed sides * 8) :=
      Nat.pow_le_pow_right (by norm_num)
        (bit_length_le_eight_mul_bytes_needed sides)
    _ = max_value sides := rfl

theorem rollBound_pos (sides : Nat) (h : 1 ≤ sides) : 0 < rollBound sides := by
  unfold rollBound
  have hle : sides ≤ max_value sides := (sides_le_max_value sides).le
  have : 1 ≤ max_value sides / sides := (Nat.one_le_div_iff h).mpr hle
  calc 0 < 1 * sides := by omega
    _ ≤ (max_value sides / sides) * sides := Nat.mul_le_mul_right sides this

/-- Counting lemma: below `m * s`, each residue `r < s` has exactly `m`
preimages under `· % s`. -/
theorem card_filter_mod_eq (m s r : Nat) (hs : 0 < s) (hr : r < s) :
    ((Finset.range (m * s)).filter (fun v => v % s = r)).card = m := by
  have key : ((Finset.range (m * s)).filter (fun v => v % s = r)).card
      = (Finset.range m).card := by
    apply Finset.card_bij' (fun v _ => v / s) (fun a _ => a * s + r)
    · intro v hv
      rw [Finset.mem_filter, Finset.mem_range] at hv
      rw [Finset.mem_range]
      exact (Nat.div_lt_iff_lt_mul hs).mpr hv.1
    · intro a ha
      rw [Finset.mem_range] at ha
      rw [Finset.mem_filter, Finset.mem_range]
      constructor
      · have : (a + 1) * s ≤ m * s := Nat.mul_le_mul_right s ha
        calc a * s + r < a * s + s := by omega
          _ = (a + 1) * s := by ring
          _ ≤ m * s := this
      · rw [Nat.mul_comm, Nat.mul_add_mod]
        exact Nat.mod_eq_of_lt hr
    · intro v hv
      rw [Finset.mem_filter] at hv
      have := Nat.div_add_mod v s
      rw [hv.2] at this
      rw [Nat.mul_comm]
      omega
    · intro a _
      rw [Nat.mul_comm a s, Nat.mul_add_div hs, Nat.div_eq_of_lt hr,
        Nat.add_zero]
  rw [key, Finset.card_range]

/-- C1: for `2 ≤ sides ≤ MAX_SIDES`, `roll_die` computes
`b = ceil(bit_length(sides)/8)` bytes, `max = 256^b`,
`bound = (max/sides)*sides`; every accepted draw `v < bound` yields
`v % sides + 1 ∈ [1, sides]`, and every outcome in `[1, sides]` has exactly
`bound / sides` accepted preimages in `[0, bound)`, so accepted outcomes
are equiprobable. -/
theorem C1_roll_die_rejection_unbiased (sides : Nat)
    (h2 : 2 ≤ sides) (hmax : sides ≤ MAX_SIDES) :
    0 < rollBound sides ∧
    (∀ v : Nat, v < rollBound sides →
      1 ≤ v % sides + 1 ∧ v % sides + 1 ≤ sides) ∧
    (∀ f : Nat → Nat, ∀ k : Nat, f k % max_value sides < rollBound sides →
      roll_die sides f k = (f k % max_value sides % sides + 1, k + 1)) ∧
    (∀ outcome : Nat, 1 ≤ outcome → outcome ≤ sides →
      ((Finset.range (rollBound sides)).filter
        (fun v => v % sides + 1 = outcome)).card = rollBound sides / sides) ∧
    rollBound sides / sides = max_value sides / sides := by
  have hs : 0 < sides := by omega
  refine ⟨rollBound_pos sides hs, ?_, ?_, ?_, ?_⟩
  · intro v _
    have := Nat.mod_lt v hs
    omega
  · intro f k hacc
    have hne : sides ≠ 1 := by omega
    unfold roll_die
    rw [if_neg hne]
    have : rollDieLoop sides f k 10000 =
        (some (f k % max_value sides % sides + 1), k + 1) := by
      show rollDieLoop sides f k (9999 + 1) = _
      unfold rollDieLoop
      simp only [hacc, if_true]
    rw [this]
  · intro outcome h1 ho
    have hq : rollBound sides / sides = max_value sides / sides := by
      unfold rollBound
      rw [Nat.mul_div_cancel _ hs]
    rw [hq]
    have hfe : (Finset.range (rollBound sides)).filter
          (fun v => v % sides + 1 = outcome)
        = (Finset.range (rollBound sides)).filter
          (fun v => v % sides = outcome - 1) := by
      apply Finset.filter_congr
      intro v _
      constructor <;> (intro h; omega)
    rw [hfe]
    show ((Finset.range ((max_value sides / sides) * sides)).filter
      (fun v => v % sides = outcome - 1)).card = max_value sides / sides
    exact card_filter_mod_eq (max_value sides / sides) sides
      (outcome - 1) hs (by omega)
  · unfold rollBound
    rw [Nat.mul_div_cancel _ hs]

theorem C1_witness :
    0 < rollBound 6 ∧
    ((Finset.range (rollBound 6)).filter
      (fun v => v % 6 + 1 = 3)).card = rollBound 6 / 6 := by
  have h := C1_roll_die_rejection_unbiased 6 (by norm_num)
    (by norm_num [MAX_SIDES])
  exact ⟨h.1, h.2.2.2.1 3 (by norm_num) (by norm_num)⟩

/-! ## C3: keep/drop complementarity (Python slice boundary) -/

/-- C3: the code evaluated at the failing boundary inputs.  With fixed
die outcomes `[1, 2]` (`N = 2`), drop-highest `K = 2` keeps nothing
(sum 0) while the claimed-equal keep-lowest `N - K = 0` keeps everything
(sum 3), because Python's `sorted_values[-0:]` is the whole list; dually
drop-lowest `0` keeps nothing (`sorted_values[:-0]` is empty) while
keep-highest `2` keeps everything.  The claimed complementarity therefore
fails at the boundaries `K = 0` and `K = N` allowed by the claim. -/
theorem C3_keep_drop_boundary_eval :
    _apply_keep_drop dieRollsOneTwo { ktype := .dh, count := 2 }
      = .ok [] ∧
    _apply_keep_drop dieRollsOneTwo { ktype := .kl, count := 0 }
      = .ok [2, 1] ∧
    _apply_keep_drop dieRollsOneTwo { ktype := .dl, count := 0 }
      = .ok [] ∧
    _apply_keep_drop dieRollsOneTwo { ktype := .kh, count := 2 }
      = .ok [2, 1] ∧
    ([] : List Int).sum = 0 ∧ ([2, 1] : List Int).sum = 3 ∧
    (roll_dice "2d6dh2" constZeroStream).final
      ≠ (roll_dice "2d6kl0" constZeroStream).final ∧
    (roll_dice "2d6dl0" constZeroStream).final
      ≠ (roll_dice "2d6kh2" constZeroStream).final := by
  refine ⟨by decide, by decide, by decide, by decide, by decide, by decide,
    ?_, ?_⟩ <;> decide

/-! ## C4: division by zero error type -/

/-- C4 counterexample: evaluating `"1/0"` reaches a division with zero
right operand; `roll_dice` reports `ok: false` but the error `type` field
is `"DiceError"` (the base class name from `type(e).__name__`), not
`"RuntimeError"` as the claim states — and `"DiceError"` is not one of
the four taxonomy values. -/
theorem C4_counterexample :
    (roll_dice "1/0" constZeroStream).ok = false ∧
    (roll_dice "1/0" constZeroStream).error =
      some { type := "DiceError", message := "Division by zero",
             position := none, input := ['1', '/', '0'] } ∧
    ("DiceError" : String) ≠ "RuntimeError" := by
  refine ⟨by decide, by decide, by decide⟩

/-- C4 (amended): a division whose right operand evaluates to zero makes
`_eval_node` raise the bare `DiceError("Division by zero")`, and any bare
`DiceError` escaping evaluation is reported by `roll_dice` as `ok: false`
with error type `"DiceError"` (outside the four-value taxonomy), the
message, no position, and the original input. -/
theorem C4_division_by_zero_DiceError :
    (∀ (f : Nat → Nat) (a b : Ast) (k : Nat) (tr : List DiceTrace)
       (va : ℚ) (k1 : Nat) (tr1 : List DiceTrace) (k2 : Nat)
       (tr2 : List DiceTrace),
       _eval_node f a k tr = .ok (va, k1, tr1) →
       _eval_node f b k1 tr1 = .ok (0, k2, tr2) →
       _eval_node f (.binaryOp .div a b) k tr
         = .error (.diceE "Division by zero")) ∧
    (∀ (expr : String) (f : Nat → Nat) (msg : String),
       run_pipeline expr f = .error (.diceE msg) →
       roll_dice expr f =
         { ok := false, final := none, type := none, trace := none,
           error := some { type := "DiceError", message := msg,
                           position := none, input := expr.data } }) := by
  constructor
  · intro f a b k tr va k1 tr1 k2 tr2 h1 h2
    simp [_eval_node, h1, h2]
  · intro expr f msg h
    unfold roll_dice
    rw [h]
    rfl

theorem C4_witness :
    roll_dice "1/0" constZeroStream =
      { ok := false, final := none, type := none, trace := none,
        error := some { type := "DiceError", message := "Division by zero",
                        position := none, input := "1/0".data } } :=
  C4_division_by_zero_DiceError.2 "1/0" constZeroStream "Division by zero"
    (by decide)

/-! ## C9: compound explosions -/

/-- C9 counterexample: a d2 that rolled 2, exploding with the compound
flag (`!!`, default `max` threshold) and entropy giving 2 then 1, records
TWO separate explosion entries `[2, 1]` and leaves the die value at 2 —
nothing is folded into a single running total, contrary to the claim. -/
theorem C9_counterexample :
    _apply_explosions
      { penetrating := false, compound := true,
        cond := { op := .cge, value := none } } 2 .dStd twoThenOneStream
      [{ value := 2, rerolls := [], explodes := [], success := none }] 0
    = .ok ([{ value := 2, rerolls := [], explodes := [2, 1],
              success := none }], 2) := by
  decide

/-- C9 (amended): the compound flag is parsed from `!!` but never read by
the evaluator: `_apply_explosions` behaves identically whatever the value
of `compound`, so chained explosions are always recorded as separate
entries in the die's `explodes` list, exactly as for `!`. -/
theorem C9_compound_flag_ignored (pen c1 c2 : Bool) (cond : Cond)
    (sides : Nat) (dt : DieType) (f : Nat → Nat) (rolls : List DieRoll)
    (k : Nat) :
    _apply_explosions
        { penetrating := pen, compound := c1, cond := cond } sides dt f
        rolls k
      = _apply_explosions
        { penetrating := pen, compound := c2, cond := cond } sides dt f
        rolls k := rfl

/-! ## C6: tokenizer totality and unmatched characters -/

/-- Every token produced by the scan is a nonempty slice lying inside the
scanned text (the scan itself is total by construction). -/
theorem tokenizeLoop_bounds (fuel : Nat) :
    ∀ (cs : List Char) (p : Nat) (t : Token), t ∈ tokenizeLoop fuel cs p →
      t.text ≠ [] ∧ p ≤ t.pos ∧ t.pos + t.text.length ≤ p + cs.length := by
  induction fuel with
  | zero =>
    intro cs p t ht
    simp [tokenizeLoop] at ht
  | succ fuel ih =>
    intro cs p t ht
    match cs with
    | [] => simp [tokenizeLoop] at ht
    | c :: rest =>
      cases hm : matchAt (c :: rest) with
      | none =>
        simp only [tokenizeLoop, hm] at ht
        obtain ⟨h1, h2, h3⟩ := ih rest (p + 1) t ht
        refine ⟨h1, by omega, ?_⟩
        simp only [List.length_cons]
        omega
      | some pair =>
        obtain ⟨len, emit⟩ := pair
        match len with
        | 0 =>
          simp only [tokenizeLoop, hm] at ht
          obtain ⟨h1, h2, h3⟩ := ih rest (p + 1) t ht
          refine ⟨h1, by omega, ?_⟩
          simp only [List.length_cons]
          omega
        | len + 1 =>
          cases emit with
          | false =>
            simp only [tokenizeLoop, hm, Bool.false_eq_true, if_false] at ht
            by_cases hl : len ≤ rest.length
            · obtain ⟨h1, h2, h3⟩ := ih _ _ t ht
              refine ⟨h1, by omega, ?_⟩
              simp only [List.length_drop, List.length_cons] at h3 ⊢
              omega
            · rw [List.drop_eq_nil_of_le
                (by simp only [List.length_cons]
                    omega : (c :: rest).length ≤ len + 1)] at ht
              cases fuel <;> simp [tokenizeLoop] at ht
          | true =>
            simp only [tokenizeLoop, hm, if_true] at ht
            rcases List.mem_cons.mp ht with rfl | hmem
            · refine ⟨by simp, by simp, ?_⟩
              simp only [List.length_take, List.length_cons]
              omega
            · by_cases hl : len ≤ rest.length
              · obtain ⟨h1, h2, h3⟩ := ih _ _ t hmem
                refine ⟨h1, by omega, ?_⟩
                simp only [List.length_drop, List.length_cons] at h3 ⊢
                omega
              · rw [List.drop_eq_nil_of_le
                  (by simp only [List.length_cons]
                      omega : (c :: rest).length ≤ len + 1)] at hmem
                cases fuel <;> simp [tokenizeLoop] at hmem

/-- C6 counterexample: `"1+$2"` contains the character `$`, which matches
no lexical pattern; the claim says such input yields `ok: false` with a
`ParseError` at its position, but the scan silently drops the `$` and the
whole expression evaluates successfully. -/
theorem C6_counterexample :
    (roll_dice "1+$2" constZeroStream).ok = true ∧
    (roll_dice "1+$2" constZeroStream).error = none := by
  exact ⟨by decide, by decide⟩

/-- C6 (amended): tokenization is total and every produced token is a
nonempty slice with its offset inside the stripped input; a character
matching no lexical pattern is silently dropped from the token stream
(never surfaced later), so an otherwise-valid expression containing one
still evaluates with `ok: true` — for `"1+$2"` the tokens are exactly
`1`, `+`, `2`. -/
theorem C6_tokenize_total_unmatched_dropped :
    (∀ (input : List Char) (t : Token), t ∈ tokenize input →
        t.text ≠ [] ∧ t.pos + t.text.length ≤ (pyStrip input).length) ∧
    (tokenize "1+$2".data).map (fun t => t.text) = [['1'], ['+'], ['2']] ∧
    (roll_dice "1+$2" constZeroStream).ok = true := by
  refine ⟨?_, by decide, by decide⟩
  intro input t ht
  obtain ⟨h1, _, h3⟩ :=
    tokenizeLoop_bounds (pyStrip input).length (pyStrip input) 0 t ht
  exact ⟨h1, by omega⟩

theorem C6_witness :
    ({ text := ['1'], pos := 0 } : Token).text ≠ [] ∧
    ({ text := ['1'], pos := 0 } : Token).pos
      + ({ text := ['1'], pos := 0 } : Token).text.length
      ≤ (pyStrip "1+2".data).length :=
  C6_tokenize_total_unmatched_dropped.1 "1+2".data
    { text := ['1'], pos := 0 } (by decide)

/-! ## C5: reroll-once vs standard reroll, and the reroll ceiling -/

/-- With `once = true` the reroll loop appends at most one entry to the
history. -/
theorem reroll_loop_once_length (cond : Cond) (sides : Nat) (dt : DieType)
    (f : Nat → Nat) (fuel k : Nat) (v : Int) (hist : List Int) :
    (reroll_loop cond true sides dt f k v hist fuel).2.1.length
      ≤ hist.length + 1 := by
  cases fuel with
  | zero => simp [reroll_loop]
  | succ fuel =>
    by_cases hc : _check_condition v cond
    · simp [reroll_loop, hc]
    · simp [reroll_loop, hc]

/-- The standard reroll loop: history grows by at most `fuel`; if it grew
by less than `fuel` the loop stopped because the condition failed on the
final value; every appended entry satisfied the condition when it was
superseded. -/
theorem reroll_loop_spec (cond : Cond) (sides : Nat) (dt : DieType)
    (f : Nat → Nat) :
    ∀ (fuel k : Nat) (v : Int) (hist : List Int),
      (reroll_loop cond false sides dt f k v hist fuel).2.1.length
        ≤ hist.length + fuel ∧
      ((reroll_loop cond false sides dt f k v hist fuel).2.1.length
          < hist.length + fuel →
        _check_condition
          (reroll_loop cond false sides dt f k v hist fuel).1 cond
          = false) ∧
      (∀ x ∈ (reroll_loop cond false sides dt f k v hist fuel).2.1,
        x ∈ hist ∨ _check_condition x cond = true) := by
  intro fuel
  induction fuel with
  | zero =>
    intro k v hist
    refine ⟨by simp [reroll_loop], by simp [reroll_loop], ?_⟩
    intro x hx
    simp only [reroll_loop] at hx
    exact Or.inl hx
  | succ fuel ih =>
    intro k v hist
    by_cases hc : _check_condition v cond
    · have hrec := ih (rollValue sides dt f k).2 (rollValue sides dt f k).1
        (hist ++ [v])
      simp only [reroll_loop, hc, if_true, Bool.false_eq_true, if_false]
      obtain ⟨hl, hs, hm⟩ := hrec
      simp only [List.length_append, List.length_cons, List.length_nil]
        at hl hs ⊢
      refine ⟨by omega, by intro hlt; exact hs (by omega), ?_⟩
      intro x hx
      rcases hm x hx with hmem | hchk
      · rcases List.mem_append.mp hmem with h | h
        · exact Or.inl h
        · simp only [List.mem_singleton] at h
          subst h
          exact Or.inr hc
      · exact Or.inr hchk
    · simp only [reroll_loop, hc, Bool.false_eq_true, if_false]
      refine ⟨by omega, fun _ => by simpa using hc, fun x hx => Or.inl hx⟩

/-- C5: a die under reroll-once never records more than one reroll (its
value is replaced at most once); under standard reroll the evaluator
either raises the `LimitError` for the reroll ceiling, or stops with a
value on which the reroll condition fails, every superseded value having
satisfied the condition, with fewer than `MAX_REROLLS` rerolls
recorded. -/
theorem C5_reroll_once_and_ceiling (spec : RerollSpec) (sides : Nat)
    (dt : DieType) (f : Nat → Nat) (r : DieRoll) (k : Nat)
    (hr : r.rerolls = []) :
    (spec.once = true →
      ∃ r' k', _apply_rerolls_die spec sides dt f r k = .ok (r', k') ∧
        r'.rerolls.length ≤ 1) ∧
    (spec.once = false →
      _apply_rerolls_die spec sides dt f r k
          = .error (.limitE "Exceeded maximum rerolls of 10000") ∨
      ∃ r' k', _apply_rerolls_die spec sides dt f r k = .ok (r', k') ∧
        _check_condition r'.value spec.cond = false ∧
        r'.rerolls.length < MAX_REROLLS ∧
        ∀ x ∈ r'.rerolls, _check_condition x spec.cond = true) := by
  constructor
  · intro honce
    have hlen := reroll_loop_once_length spec.cond sides dt f MAX_REROLLS
      k r.value []
    unfold _apply_rerolls_die
    rw [honce]
    rcases hres : reroll_loop spec.cond true sides dt f k r.value []
        MAX_REROLLS with ⟨v, hist, k'⟩
    rw [hres] at hlen
    simp only [List.length_nil, Nat.zero_add] at hlen
    simp only [hres]
    rw [if_neg (by simp only [MAX_REROLLS]; omega)]
    refine ⟨_, _, rfl, ?_⟩
    simp only [hr, List.nil_append]
    omega
  · intro honce
    obtain ⟨hl, hs, hm⟩ := reroll_loop_spec spec.cond sides dt f
      MAX_REROLLS k r.value []
    unfold _apply_rerolls_die
    rw [honce]
    rcases hres : reroll_loop spec.cond false sides dt f k r.value []
        MAX_REROLLS with ⟨v, hist, k'⟩
    rw [hres] at hl hs hm
    simp only [List.length_nil, Nat.zero_add] at hl hs
    simp only [hres]
    by_cases hfull : MAX_REROLLS ≤ hist.length
    · left
      rw [if_pos hfull]
    · right
      rw [if_neg hfull]
      refine ⟨_, _, rfl, ?_, ?_, ?_⟩
      · exact hs (by omega)
      · simp only [hr, List.nil_append]
        omega
      · intro x hx
        simp only [hr, List.nil_append] at hx
        rcases hm x hx with hmem | hchk
        · simp at hmem
        · exact hchk

theorem C5_witness :
    (∃ r' k',
      _apply_rerolls_die
        { once := true, cond := { op := .ceq, value := some 1 } } 6 .dStd
        constZeroStream
        { value := 1, rerolls := [], explodes := [], success := none } 0
        = .ok (r', k') ∧ r'.rerolls.length ≤ 1) ∧
    (_apply_rerolls_die
        { once := false, cond := { op := .ceq, value := some 1 } } 6 .dStd
        constZeroStream
        { value := 1, rerolls := [], explodes := [], success := none } 0
        = .error (.limitE "Exceeded maximum rerolls of 10000") ∨
      ∃ r' k',
        _apply_rerolls_die
          { once := false, cond := { op := .ceq, value := some 1 } } 6 .dStd
          constZeroStream
          { value := 1, rerolls := [], explodes := [], success := none } 0
          = .ok (r', k') ∧
        _check_condition r'.value { op := .ceq, value := some 1 } = false ∧
        r'.rerolls.length < MAX_REROLLS ∧
        ∀ x ∈ r'.rerolls,
          _check_condition x { op := .ceq, value := some 1 } = true) :=
  ⟨(C5_reroll_once_and_ceiling
      { once := true, cond := { op := .ceq, value := some 1 } } 6 .dStd
      constZeroStream
      { value := 1, rerolls := [], explodes := [], success := none } 0
      rfl).1 rfl,
   (C5_reroll_once_and_ceiling
      { once := false, cond := { op := .ceq, value := some 1 } } 6 .dStd
      constZeroStream
      { value := 1, rerolls := [], explodes := [], success := none } 0
      rfl).2 rfl⟩

/-! ## C8: every die value stays in the die domain -/

theorem rollDieLoop_range (sides : Nat) (f : Nat → Nat) (hs : 1 ≤ sides) :
    ∀ (fuel k r k' : Nat),
      rollDieLoop sides f k fuel = (some r, k') → 1 ≤ r ∧ r ≤ sides := by
  intro fuel
  induction fuel with
  | zero =>
    intro k r k' h
    simp [rollDieLoop] at h
  | succ fuel ih =>
    intro k r k' h
    simp only [rollDieLoop] at h
    by_cases hv : f k % max_value sides < rollBound sides
    · rw [if_pos hv] at h
      have hr : f k % max_value sides % sides + 1 = r := by
        have := congrArg Prod.fst h
        simpa using this
      have hlt : f k % max_value sides % sides < sides :=
        Nat.mod_lt _ (by omega)
      omega
    · rw [if_neg hv] at h
      exact ih _ _ _ h

theorem roll_die_range (sides : Nat) (f : Nat → Nat) (k : Nat)
    (hs : 1 ≤ sides) :
    1 ≤ (roll_die sides f k).1 ∧ (roll_die sides f k).1 ≤ sides := by
  unfold roll_die
  by_cases h1 : sides = 1
  · simp [h1]
  · rw [if_neg h1]
    rcases hres : rollDieLoop sides f k 10000 with ⟨or, k'⟩
    cases or with
    | some r =>
      simp only []
      exact rollDieLoop_range sides f hs 10000 k r k' hres
    | none =>
      simp only []
      have hlt : f k' % sides < sides := Nat.mod_lt _ (by omega)
      omega

theorem rollValue_inDomain (sides : Nat) (dt : DieType) (f : Nat → Nat)
    (k : Nat) (hs : 1 ≤ sides) :
    inDomain dt sides (rollValue sides dt f k).1 := by
  cases dt with
  | dF =>
    obtain ⟨h1, h2⟩ := roll_die_range 3 f k (by norm_num)
    simp [rollValue, inDomain]
    omega
  | dStd =>
    obtain ⟨h1, h2⟩ := roll_die_range sides f k hs
    simp [rollValue, inDomain]
    omega
  | dPct =>
    obtain ⟨h1, h2⟩ := roll_die_range sides f k hs
    simp [rollValue, inDomain]
    omega

theorem rollN_inv (sides : Nat) (dt : DieType) (f : Nat → Nat)
    (hs : 1 ≤ sides) :
    ∀ (n k : Nat), ∀ r ∈ (rollN sides dt f k n).1,
      inDomain dt sides r.value ∧ r.rerolls = [] := by
  intro n
  induction n with
  | zero =>
    intro k r h
    simp [rollN] at h
  | succ n ih =>
    intro k r h
    rcases hrv : rollValue sides dt f k with ⟨v, k1⟩
    rcases hrn : rollN sides dt f k1 n with ⟨rest, k2⟩
    simp only [rollN, hrv, hrn] at h
    rcases List.mem_cons.mp h with rfl | hmem
    · refine ⟨?_, rfl⟩
      have := rollValue_inDomain sides dt f k hs
      rw [hrv] at this
      exact this
    · have := ih k1 r (by rw [hrn]; exact hmem)
      exact this

theorem reroll_loop_domain (cond : Cond) (once : Bool) (sides : Nat)
    (dt : DieType) (f : Nat → Nat) (hs : 1 ≤ sides) :
    ∀ (fuel k : Nat) (v : Int) (hist : List Int),
      inDomain dt sides v → (∀ x ∈ hist, inDomain dt sides x) →
      inDomain dt sides
        (reroll_loop cond once sides dt f k v hist fuel).1 ∧
      ∀ x ∈ (reroll_loop cond once sides dt f k v hist fuel).2.1,
        inDomain dt sides x := by
  intro fuel
  induction fuel with
  | zero =>
    intro k v hist hv hh
    simpa [reroll_loop] using ⟨hv, hh⟩
  | succ fuel ih =>
    intro k v hist hv hh
    by_cases hc : _check_condition v cond
    · have hnv : inDomain dt sides (rollValue sides dt f k).1 :=
        rollValue_inDomain sides dt f k hs
      have hh2 : ∀ x ∈ hist ++ [v], inDomain dt sides x := by
        intro x hx
        rcases List.mem_append.mp hx with h | h
        · exact hh x h
        · simp only [List.mem_singleton] at h
          subst h
          exact hv
      cases once with
      | true =>
        simp only [reroll_loop, hc, if_true]
        exact ⟨hnv, hh2⟩
      | false =>
        simp only [reroll_loop, hc, if_true, Bool.false_eq_true, if_false]
        exact ih _ _ _ hnv hh2
    · simp only [reroll_loop, hc, Bool.false_eq_true, if_false]
      exact ⟨hv, hh⟩

theorem _apply_rerolls_die_domain (spec : RerollSpec) (sides : Nat)
    (dt : DieType) (f : Nat → Nat) (hs : 1 ≤ sides) (r : DieRoll)
    (k : Nat) (hv : inDomain dt sides r.value)
    (hh : ∀ x ∈ r.rerolls, inDomain dt sides x) :
    ∀ r' k', _apply_rerolls_die spec sides dt f r k = .ok (r', k') →
      inDomain dt sides r'.value ∧
      ∀ x ∈ r'.rerolls, inDomain dt sides x := by
  intro r' k' h
  obtain ⟨hdv, hdh⟩ := reroll_loop_domain spec.cond spec.once sides dt f hs
    MAX_REROLLS k r.value [] hv (by simp)
  unfold _apply_rerolls_die at h
  rcases hres : reroll_loop spec.cond spec.once sides dt f k r.value []
      MAX_REROLLS with ⟨v, hist, k2⟩
  rw [hres] at h hdv hdh
  simp only [] at h hdv hdh
  by_cases hfull : MAX_REROLLS ≤ hist.length
  · rw [if_pos hfull] at h
    exact absurd h (by simp)
  · rw [if_neg hfull] at h
    obtain ⟨h1, h2⟩ : ({ r with value := v, rerolls := r.rerolls ++ hist }
        = r' ∧ k2 = k') := by
      constructor
      · exact congrArg Prod.fst (Except.ok.inj h)
      · exact congrArg Prod.snd (Except.ok.inj h)
    subst h1
    refine ⟨hdv, ?_⟩
    intro x hx
    rcases List.mem_append.mp hx with hx1 | hx2
    · exact hh x hx1
    · exact hdh x hx2

theorem _apply_rerolls_domain (spec : RerollSpec) (sides : Nat)
    (dt : DieType) (f : Nat → Nat) (hs : 1 ≤ sides) :
    ∀ (rolls : List DieRoll) (k : Nat) (out : List DieRoll) (k' : Nat),
      (∀ r ∈ rolls, inDomain dt sides r.value ∧
        ∀ x ∈ r.rerolls, inDomain dt sides x) →
      _apply_rerolls spec sides dt f rolls k = .ok (out, k') →
      ∀ r ∈ out, inDomain dt sides r.value ∧
        ∀ x ∈ r.rerolls, inDomain dt sides x := by
  intro rolls
  induction rolls with
  | nil =>
    intro k out k' _ h r hmem
    simp only [_apply_rerolls] at h
    obtain ⟨h1, _⟩ : (([] : List DieRoll) = out ∧ k = k') := by
      constructor
      · exact congrArg Prod.fst (Except.ok.inj h)
      · exact congrArg Prod.snd (Except.ok.inj h)
    subst h1
    simp at hmem
  | cons r0 rest ih =>
    intro k out k' hinv h r hmem
    simp only [_apply_rerolls] at h
    rcases hd : _apply_rerolls_die spec sides dt f r0 k with e | ⟨r1, k1⟩
    · rw [hd] at h
      exact absurd h (by simp)
    · simp only [hd] at h
      rcases hrest : _apply_rerolls spec sides dt f rest k1 with e | ⟨out1, k2⟩
      · rw [hrest] at h
        exact absurd h (by simp)
      · simp only [hrest] at h
        obtain ⟨h1, _⟩ : (r1 :: out1 = out ∧ k2 = k') := by
          constructor
          · exact congrArg Prod.fst (Except.ok.inj h)
          · exact congrArg Prod.snd (Except.ok.inj h)
        subst h1
        rcases List.mem_cons.mp hmem with rfl | hmem2
        · have h0 := hinv r0 (List.mem_cons_self _ _)
          exact _apply_rerolls_die_domain spec sides dt f hs r0 k
            h0.1 h0.2 r k1 hd
        · exact ih k1 out1 k2
            (fun rr hrr => hinv rr (List.mem_cons_of_mem _ hrr)) hrest
            r hmem2

theorem _apply_explosions_die_preserves (cond : Cond) (pen : Bool)
    (sides : Nat) (dt : DieType) (f : Nat → Nat) (r : DieRoll) (k : Nat) :
    ∀ r' k', _apply_explosions_die cond pen sides dt f r k = .ok (r', k') →
      r'.value = r.value ∧ r'.rerolls = r.rerolls := by
  intro r' k' h
  unfold _apply_explosions_die at h
  rcases hres : explode_loop cond pen sides dt f k r.value []
      MAX_EXPLOSIONS with ⟨acc, k2⟩
  rw [hres] at h
  simp only [] at h
  by_cases hfull : MAX_EXPLOSIONS ≤ acc.length
  · rw [if_pos hfull] at h
    exact absurd h (by simp)
  · rw [if_neg hfull] at h
    have h1 : ({ r with explodes := r.explodes ++ acc } = r') :=
      congrArg Prod.fst (Except.ok.inj h)
    subst h1
    exact ⟨rfl, rfl⟩

theorem _apply_explosions_list_preserves (cond : Cond) (pen : Bool)
    (sides : Nat) (dt : DieType) (f : Nat → Nat) :
    ∀ (rolls : List DieRoll) (k : Nat) (out : List DieRoll) (k' : Nat),
      _apply_explosions_list cond pen sides dt f rolls k = .ok (out, k') →
      ∀ r' ∈ out, ∃ r ∈ rolls, r'.value = r.value ∧ r'.rerolls = r.rerolls := by
  intro rolls
  induction rolls with
  | nil =>
    intro k out k' h r' hmem
    simp only [_apply_explosions_list] at h
    obtain ⟨h1, _⟩ : (([] : List DieRoll) = out ∧ k = k') := by
      constructor
      · exact congrArg Prod.fst (Except.ok.inj h)
      · exact congrArg Prod.snd (Except.ok.inj h)
    subst h1
    simp at hmem
  | cons r0 rest ih =>
    intro k out k' h r' hmem
    simp only [_apply_explosions_list] at h
    rcases hd : _apply_explosions_die cond pen sides dt f r0 k
      with e | ⟨r1, k1⟩
    · rw [hd] at h
      exact absurd h (by simp)
    · simp only [hd] at h
      rcases hrest : _apply_explosions_list cond pen sides dt f rest k1
        with e | ⟨out1, k2⟩
      · rw [hrest] at h
        exact absurd h (by simp)
      · simp only [hrest] at h
        obtain ⟨h1, _⟩ : (r1 :: out1 = out ∧ k2 = k') := by
          constructor
          · exact congrArg Prod.fst (Except.ok.inj h)
          · exact congrArg Prod.snd (Except.ok.inj h)
        subst h1
        rcases List.mem_cons.mp hmem with rfl | hmem2
        · obtain ⟨hv, hr⟩ := _apply_explosions_die_preserves cond pen sides
            dt f r0 k r' k1 hd
          exact ⟨r0, List.mem_cons_self _ _, hv, hr⟩
        · obtain ⟨r2, hr2, hv, hr⟩ := ih k1 out1 k2 hrest r' hmem2
          exact ⟨r2, List.mem_cons_of_mem _ hr2, hv, hr⟩

theorem applySortRolls_subset (sd : Option SortDir) (rolls : List DieRoll) :
    ∀ r ∈ applySortRolls sd rolls, r ∈ rolls := by
  intro r h
  cases sd with
  | none => exact h
  | some d =>
    cases d with
    | sa =>
      exact (List.perm_insertionSort _ rolls).subset h
    | sd =>
      exact (List.perm_insertionSort _ rolls).subset h

theorem _count_successes_values (rolls : List DieRoll) (comp : Cond)
    (kept : Option (List Int)) :
    ∀ r' ∈ (_count_successes rolls comp kept).1,
      ∃ r ∈ rolls, r'.value = r.value ∧ r'.rerolls = r.rerolls := by
  intro r' h
  simp only [_count_successes] at h
  obtain ⟨⟨i, r⟩, hmem, heq⟩ := List.mem_map.mp h
  have hr : r ∈ rolls := by
    rw [List.enum_eq_zip_range] at hmem
    exact (List.of_mem_zip hmem).2
  split at heq
  · subst heq
    exact ⟨r, hr, rfl, rfl⟩
  · subst heq
    exact ⟨r, hr, rfl, rfl⟩

theorem rolls_and_kept_domain (count sides : Nat) (dt : DieType)
    (mods : Mods) (f : Nat → Nat) (k : Nat) (hs : 1 ≤ sides) :
    ∀ (rolls : List DieRoll) (kept : Option (List Int)) (k2 : Nat),
      rolls_and_kept count sides dt mods f k = .ok (rolls, kept, k2) →
      ∀ r ∈ rolls, inDomain dt sides r.value ∧
        ∀ x ∈ r.rerolls, inDomain dt sides x := by
  intro rolls kept k2 h
  unfold rolls_and_kept at h
  rcases hr0 : rollN sides dt f k count with ⟨rolls0, k0⟩
  simp only [hr0] at h
  have hinv0 : ∀ r ∈ rolls0, inDomain dt sides r.value ∧
      ∀ x ∈ r.rerolls, inDomain dt sides x := by
    intro r hmem
    obtain ⟨h1, h2⟩ := rollN_inv sides dt f hs count k r
      (by rw [hr0]; exact hmem)
    refine ⟨h1, ?_⟩
    rw [h2]
    intro x hx
    simp at hx
  rcases hstep1 : (match mods.reroll with
      | some spec => _apply_rerolls spec sides dt f rolls0 k0
      | none => .ok (rolls0, k0)) with e | ⟨rolls1, k1⟩
  · simp only [hstep1] at h
    exact absurd h (by simp)
  · simp only [hstep1] at h
    have hinv1 : ∀ r ∈ rolls1, inDomain dt sides r.value ∧
        ∀ x ∈ r.rerolls, inDomain dt sides x := by
      rcases hmr : mods.reroll with _ | spec
      · rw [hmr] at hstep1
        simp only [] at hstep1
        obtain ⟨h1, _⟩ : (rolls0 = rolls1 ∧ k0 = k1) := by
          constructor
          · exact congrArg Prod.fst (Except.ok.inj hstep1)
          · exact congrArg Prod.snd (Except.ok.inj hstep1)
        subst h1
        exact hinv0
      · rw [hmr] at hstep1
        exact _apply_rerolls_domain spec sides dt f hs rolls0 k0 rolls1 k1
          hinv0 hstep1
    rcases hstep2 : (match mods.explode with
        | some spec => _apply_explosions spec sides dt f rolls1 k1
        | none => .ok (rolls1, k1)) with e | ⟨rolls2, k2x⟩
    · simp only [hstep2] at h
      exact absurd h (by simp)
    · simp only [hstep2] at h
      have hinv2 : ∀ r ∈ rolls2, inDomain dt sides r.value ∧
          ∀ x ∈ r.rerolls, inDomain dt sides x := by
        rcases hme : mods.explode with _ | spec
        · rw [hme] at hstep2
          simp only [] at hstep2
          obtain ⟨h1, _⟩ : (rolls1 = rolls2 ∧ k1 = k2x) := by
            constructor
            · exact congrArg Prod.fst (Except.ok.inj hstep2)
            · exact congrArg Prod.snd (Except.ok.inj hstep2)
          subst h1
          exact hinv1
        · rw [hme] at hstep2
          intro r hmem
          obtain ⟨r1, hr1, hv, hrr⟩ := _apply_explosions_list_preserves
            (resolveCond spec.cond sides dt) spec.penetrating sides dt f
            rolls1 k1 rolls2 k2x hstep2 r hmem
          rw [hv, hrr]
          exact hinv1 r1 hr1
      rcases hmk : mods.keep with _ | ks
      · simp only [hmk] at h
        obtain h1 : rolls2 = rolls := by
          have := Except.ok.inj h
          exact congrArg (fun t => t.1) this
        subst h1
        exact hinv2
      · simp only [hmk] at h
        rcases hkd : _apply_keep_drop rolls2 ks with e | kv
        · rw [hkd] at h
          exact absurd h (by simp)
        · simp only [hkd] at h
          obtain h1 : rolls2 = rolls := by
            have := Except.ok.inj h
            exact congrArg (fun t => t.1) this
          subst h1
          exact hinv2

/-- C8: whenever a dice term evaluates without error (any modifiers, any
entropy), every `DieRoll` in its trace has its `value` in the die's
domain — `[1, sides]` for standard and percentile dice, `{-1, 0, 1}` for
FATE — and every superseded value recorded in its reroll history also
lies in the domain (superseded values appear only there, `value` holding
the final in-domain roll). -/
theorem C8_die_values_in_domain (count sides : Nat) (dt : DieType)
    (mods : Mods) (f : Nat → Nat) (k : Nat) (hs : 1 ≤ sides)
    (v : Int) (tr : DiceTrace) (k' : Nat)
    (h : _eval_dice count sides dt mods f k = .ok (v, tr, k')) :
    ∀ r ∈ tr.rolls, inDomain dt sides r.value ∧
      ∀ x ∈ r.rerolls, inDomain dt sides x := by
  unfold _eval_dice at h
  rcases hrk : rolls_and_kept count sides dt mods f k
    with e | ⟨rolls2, kept, k2⟩
  · rw [hrk] at h
    exact absurd h (by simp)
  · simp only [hrk] at h
    have hdom := rolls_and_kept_domain count sides dt mods f k hs
      rolls2 kept k2 hrk
    have hdom3 : ∀ r ∈ applySortRolls mods.sort rolls2,
        inDomain dt sides r.value ∧
        ∀ x ∈ r.rerolls, inDomain dt sides x := by
      intro r hmem
      exact hdom r (applySortRolls_subset mods.sort rolls2 r hmem)
    rcases hmc : mods.comparator with _ | comp
    · simp only [hmc] at h
      split at h
      · have htr : tr.rolls = applySortRolls mods.sort rolls2 := by
          have := Except.ok.inj h
          have h2 := congrArg (fun t => t.2.1.rolls) this
          simpa using h2.symm
        rw [htr]
        exact hdom3
      · have htr : tr.rolls = applySortRolls mods.sort rolls2 := by
          have := Except.ok.inj h
          have h2 := congrArg (fun t => t.2.1.rolls) this
          simpa using h2.symm
        rw [htr]
        exact hdom3
    · simp only [hmc] at h
      rcases hcs : _count_successes (applySortRolls mods.sort rolls2)
        comp kept with ⟨marked, succs⟩
      simp only [hcs] at h
      have htr : tr.rolls = marked := by
        have := Except.ok.inj h
        have h2 := congrArg (fun t => t.2.1.rolls) this
        simpa using h2.symm
      rw [htr]
      intro r hmem
      have hmem2 : r ∈ (_count_successes (applySortRolls mods.sort rolls2)
          comp kept).1 := by
        rw [hcs]
        exact hmem
      obtain ⟨r0, hr0, hv, hrr⟩ := _count_successes_values
        (applySortRolls mods.sort rolls2) comp kept r hmem2
      rw [hv, hrr]
      exact hdom3 r0 hr0

theorem C8_witness :
    inDomain .dStd 6 ({ value := 1, rerolls := [], explodes := [], success := none } : DieRoll).value :=
  (C8_die_values_in_domain 2 6 .dStd initMods constZeroStream 0
    (by norm_num) 2
    { term := ['2', 'd', '6'],
      rolls := [{ value := 1, rerolls := [], explodes := [],
                  success := none },
                { value := 1, rerolls := [], explodes := [],
                  success := none }],
      keptValues := none, sum := some 2, threshold := none,
      successes := none } 2 (by decide)
    { value := 1, rerolls := [], explodes := [], success := none }
    (by decide)).1


/-! ## C2: success counting and the whole-expression result kind -/

/-- `_count_successes` returns the count of the kept values (all face
values when no keep/drop was applied) satisfying the comparator. -/
theorem _count_successes_count (rolls : List DieRoll) (comp : Cond)
    (kept : Option (List Int)) :
    (_count_successes rolls comp kept).2 =
      ((match kept with
        | some ks => ks
        | none => rolls.map (fun r : DieRoll => r.value)).countP
        (fun x => _check_condition x comp) : Int) := rfl

/-- Mapping the die value over an enumeration-indexed rewrite that keeps
each value gives back the original values. -/
theorem map_value_enum_map (l : List DieRoll)
    (g : Nat × DieRoll → DieRoll)
    (hg : ∀ p, (g p).value = p.2.value) :
    (l.enum.map g).map (fun r : DieRoll => r.value)
      = l.map (fun r : DieRoll => r.value) := by
  rw [List.map_map]
  have hfun : ((fun r : DieRoll => r.value) ∘ g)
      = (fun r : DieRoll => r.value) ∘ Prod.snd := by
    funext p
    exact hg p
  rw [hfun, ← List.map_map, List.enum_map_snd]

/-- Marking success flags does not change the die values. -/
theorem _count_successes_map_value (rolls : List DieRoll) (comp : Cond)
    (kept : Option (List Int)) :
    (_count_successes rolls comp kept).1.map (fun r : DieRoll => r.value)
      = rolls.map (fun r : DieRoll => r.value) := by
  refine map_value_enum_map rolls _ ?_
  rintro ⟨i, r⟩
  dsimp only
  split
  · rfl
  · rfl

theorem rollN_length (sides : Nat) (dt : DieType) (f : Nat → Nat) :
    ∀ (n k : Nat), (rollN sides dt f k n).1.length = n := by
  intro n
  induction n with
  | zero =>
    intro k
    simp [rollN]
  | succ n ih =>
    intro k
    rcases hrv : rollValue sides dt f k with ⟨v, k1⟩
    rcases hrn : rollN sides dt f k1 n with ⟨rest, k2⟩
    simp only [rollN, hrv, hrn, List.length_cons]
    have := ih k1
    rw [hrn] at this
    simpa using this

/-- A dice term whose modifiers carry a success comparator evaluates to
the count of the kept values (all sorted roll face values when no
keep/drop was applied) satisfying the comparator, and records it as the
trace success count. -/
theorem _eval_dice_comparator (count sides : Nat) (dt : DieType)
    (mods : Mods) (f : Nat → Nat) (k : Nat) (comp : Cond) (v : Int)
    (tr : DiceTrace) (k' : Nat)
    (hc : mods.comparator = some comp)
    (h : _eval_dice count sides dt mods f k = .ok (v, tr, k')) :
    tr.successes = some v ∧
    ∃ rolls2 kept k2,
      rolls_and_kept count sides dt mods f k = .ok (rolls2, kept, k2) ∧
      v = ((match kept with
            | some ks => ks
            | none => (applySortRolls mods.sort rolls2).map
                (fun r : DieRoll => r.value)).countP
           (fun x => _check_condition x comp) : Int) := by
  unfold _eval_dice at h
  rcases hrk : rolls_and_kept count sides dt mods f k
    with e | ⟨rolls2, kept, k2⟩
  · rw [hrk] at h
    exact absurd h (by simp)
  · simp only [hrk] at h
    simp only [hc] at h
    rcases hcs : _count_successes (applySortRolls mods.sort rolls2)
      comp kept with ⟨marked, succs⟩
    simp only [hcs] at h
    have hinj := Except.ok.inj h
    rw [Prod.mk.injEq, Prod.mk.injEq] at hinj
    obtain ⟨hv, htr, hk⟩ := hinj
    constructor
    · rw [← htr]
      exact congrArg some hv
    · refine ⟨rolls2, kept, k2, rfl, ?_⟩
      rw [← hv]
      have := _count_successes_count (applySortRolls mods.sort rolls2)
        comp kept
      rw [hcs] at this
      exact this

/-- C2: (1) every dice term carrying a success comparator evaluates to
the count of satisfying values, drawn from the kept subset when
keep/drop was applied and from all rolls otherwise, and the trace
records that count; (2) the whole-expression result kind is
`success_count` exactly when some trace has a populated success count;
(3) `"5d6>=1"` yields `ok` with final `5` and kind `success_count` for
every entropy stream, since every d6 face is at least 1. -/
theorem C2_success_count_and_result_kind :
    (∀ (count sides : Nat) (dt : DieType) (mods : Mods) (f : Nat → Nat)
       (k : Nat) (comp : Cond) (v : Int) (tr : DiceTrace) (k' : Nat),
       mods.comparator = some comp →
       _eval_dice count sides dt mods f k = .ok (v, tr, k') →
       tr.successes = some v ∧
       ∃ rolls2 kept k2,
         rolls_and_kept count sides dt mods f k = .ok (rolls2, kept, k2) ∧
         v = ((match kept with
               | some ks => ks
               | none => (applySortRolls mods.sort rolls2).map
                   (fun r : DieRoll => r.value)).countP
              (fun x => _check_condition x comp) : Int)) ∧
    (∀ (expr : String) (f : Nat → Nat),
       (roll_dice expr f).ok = true →
       ((roll_dice expr f).type = some "success_count" ↔
        ((roll_dice expr f).trace.getD []).any
          (fun t => t.successes.isSome) = true)) ∧
    (∀ f : Nat → Nat,
       (roll_dice "5d6>=1" f).ok = true ∧
       (roll_dice "5d6>=1" f).final = some ((5 : Int) : ℚ) ∧
       (roll_dice "5d6>=1" f).type = some "success_count") := by
  refine ⟨_eval_dice_comparator, ?_, ?_⟩
  · intro expr f hok
    unfold roll_dice at hok ⊢
    rcases hrp : run_pipeline expr f with e | ⟨res, kk, traces⟩
    · rw [hrp] at hok
      simp at hok
    · by_cases hany : traces.any (fun t => t.successes.isSome) = true
      · simp [hany]
      · simp only [Bool.not_eq_true] at hany
        simp [hany]
  · intro f
    have hp : parse "5d6>=1".data =
        .ok (.dice 5 6 .dStd
          { reroll := none, explode := none, keep := none, sort := none,
            comparator := some { op := .cge, value := some 1 } }) := by
      decide
    rcases hr0 : rollN 6 .dStd f 0 5 with ⟨rolls0, k0⟩
    have hrk : rolls_and_kept 5 6 .dStd
        { reroll := none, explode := none, keep := none, sort := none,
          comparator := some { op := .cge, value := some 1 } } f 0
        = .ok (rolls0, none, k0) := by
      simp only [rolls_and_kept, hr0]
    have hone : ∀ r ∈ rolls0, 1 ≤ r.value := by
      intro r hr
      have hmem : r ∈ (rollN 6 .dStd f 0 5).1 := by
        rw [hr0]
        exact hr
      have := rollN_inv 6 .dStd f (by norm_num) 5 0 r hmem
      have hdom : 1 ≤ r.value ∧ r.value ≤ 6 := by
        simpa [inDomain] using this.1
      exact hdom.1
    have hlen : rolls0.length = 5 := by
      have := rollN_length 6 .dStd f 5 0
      rw [hr0] at this
      simpa using this
    have hcount : (rolls0.map (fun r : DieRoll => r.value)).countP
        (fun x => _check_condition x { op := .cge, value := some 1 })
        = 5 := by
      have hall : ∀ x ∈ rolls0.map (fun r : DieRoll => r.value),
          _check_condition x { op := .cge, value := some 1 } = true := by
        intro x hx
        obtain ⟨r, hr, rfl⟩ := List.mem_map.mp hx
        simp only [_check_condition, decide_eq_true_eq]
        exact hone r hr
      calc (rolls0.map (fun r : DieRoll => r.value)).countP
            (fun x => _check_condition x { op := .cge, value := some 1 })
          = (rolls0.map (fun r : DieRoll => r.value)).length :=
            List.countP_eq_length.mpr hall
        _ = 5 := by simpa using hlen
    rcases hcs : _count_successes rolls0
      { op := .cge, value := some 1 } none with ⟨marked, succs⟩
    have hsucc : succs = 5 := by
      have hcc := _count_successes_count rolls0
        { op := .cge, value := some 1 } none
      rw [hcs] at hcc
      simp only at hcc
      rw [hcc, hcount]
      rfl
    unfold roll_dice run_pipeline
    rw [hp]
    simp only [_eval_node, _eval_dice, hrk, applySortRolls, hcs, hsucc]
    refine ⟨trivial, trivial, ?_⟩
    simp

theorem C2_witness :
    (roll_dice "2d6>=1" constZeroStream).ok = true ∧
    ((roll_dice "2d6>=1" constZeroStream).type = some "success_count" ↔
     ((roll_dice "2d6>=1" constZeroStream).trace.getD []).any
       (fun t => t.successes.isSome) = true) :=
  ⟨by decide,
   C2_success_count_and_result_kind.2.1 "2d6>=1" constZeroStream
     (by decide)⟩

/-! ## C10: the success-counting pool versus keep/drop and explosions -/

/-- `rolls_and_kept` returns a kept-values list exactly when a keep/drop
modifier is present, and that list is `_apply_keep_drop` of the final
rolls. -/
theorem rolls_and_kept_keep (count sides : Nat) (dt : DieType)
    (mods : Mods) (f : Nat → Nat) (k : Nat) (rolls : List DieRoll)
    (kept : Option (List Int)) (k2 : Nat)
    (h : rolls_and_kept count sides dt mods f k = .ok (rolls, kept, k2)) :
    (mods.keep = none → kept = none) ∧
    (∀ ks, mods.keep = some ks →
      ∃ kv, kept = some kv ∧ _apply_keep_drop rolls ks = .ok kv) := by
  unfold rolls_and_kept at h
  rcases hr0 : rollN sides dt f k count with ⟨rolls0, k0⟩
  simp only [hr0] at h
  rcases hstep1 : (match mods.reroll with
      | some spec => _apply_rerolls spec sides dt f rolls0 k0
      | none => .ok (rolls0, k0)) with e | ⟨rolls1, k1⟩
  · simp only [hstep1] at h
    exact absurd h (by simp)
  · simp only [hstep1] at h
    rcases hstep2 : (match mods.explode with
        | some spec => _apply_explosions spec sides dt f rolls1 k1
        | none => .ok (rolls1, k1)) with e | ⟨rolls2, k2x⟩
    · simp only [hstep2] at h
      exact absurd h (by simp)
    · simp only [hstep2] at h
      rcases hmk : mods.keep with _ | ks
      · simp only [hmk] at h
        have hinj := Except.ok.inj h
        rw [Prod.mk.injEq, Prod.mk.injEq] at hinj
        obtain ⟨hr, hkept, hk⟩ := hinj
        subst hr
        subst hkept
        refine ⟨fun _ => rfl, ?_⟩
        intro ks hks
        exact absurd hks (by simp)
      · simp only [hmk] at h
        rcases hkd : _apply_keep_drop rolls2 ks with e | kv
        · rw [hkd] at h
          exact absurd h (by simp)
        · simp only [hkd] at h
          have hinj := Except.ok.inj h
          rw [Prod.mk.injEq, Prod.mk.injEq] at hinj
          obtain ⟨hr, hkept, hk⟩ := hinj
          subst hr
          constructor
          · intro hc
            exact absurd hc (by simp)
          · intro ks2 hks2
            obtain rfl : ks = ks2 := Option.some.inj hks2
            exact ⟨kv, hkept.symm, hkd⟩

/-- Every value kept by `_apply_keep_drop` is one of the dice totals
(face value plus explosion sum). -/
theorem _apply_keep_drop_subset (rolls : List DieRoll) (spec : KeepSpec)
    (kv : List Int) (h : _apply_keep_drop rolls spec = .ok kv) :
    ∀ x ∈ kv, x ∈ rolls.map dieTotal := by
  unfold _apply_keep_drop at h
  by_cases hlen : (rolls.map dieTotal).length < spec.count
  · rw [if_pos hlen] at h
    exact absurd h (by simp)
  · rw [if_neg hlen] at h
    intro x hx
    have hsort : x ∈ (rolls.map dieTotal).insertionSort
        (fun a b => b ≤ a) → x ∈ rolls.map dieTotal := by
      intro hm
      exact (List.perm_insertionSort (fun a b => b ≤ a)
        (rolls.map dieTotal)).mem_iff.mp hm
    rcases hkt : spec.ktype with _ | _ | _ | _ <;> simp only [hkt] at h <;>
      obtain rfl := (Except.ok.inj h).symm
    · exact hsort (List.mem_of_mem_take hx)
    · unfold pySliceLastN at hx
      by_cases hc : spec.count = 0
      · rw [if_pos hc] at hx
        exact hsort hx
      · rw [if_neg hc] at hx
        exact hsort (List.mem_of_mem_drop hx)
    · exact hsort (List.mem_of_mem_drop hx)
    · unfold pySliceDropLastN at hx
      by_cases hc : spec.count = 0
      · rw [if_pos hc] at hx
        exact absurd hx (by simp)
      · rw [if_neg hc] at hx
        exact hsort (List.mem_of_mem_take hx)

/-- C10: what pool the success comparator counts over. (1) Without a
keep/drop modifier the count is over the FACE values of the traced
rolls, so explosion values never contribute to the success count.
(2) With a keep/drop modifier the count is over the kept values, each of
which is one of the dice totals (face value plus explosion sum) — so
there explosions do contribute through the totals. -/
theorem C10_success_pool :
    (∀ (count sides : Nat) (dt : DieType) (mods : Mods) (f : Nat → Nat)
       (k : Nat) (comp : Cond) (v : Int) (tr : DiceTrace) (k' : Nat),
       mods.comparator = some comp → mods.keep = none →
       _eval_dice count sides dt mods f k = .ok (v, tr, k') →
       v = ((tr.rolls.map (fun r : DieRoll => r.value)).countP
            (fun x => _check_condition x comp) : Int)) ∧
    (∀ (count sides : Nat) (dt : DieType) (mods : Mods) (f : Nat → Nat)
       (k : Nat) (comp : Cond) (ks : KeepSpec) (v : Int) (tr : DiceTrace)
       (k' : Nat),
       mods.comparator = some comp → mods.keep = some ks →
       _eval_dice count sides dt mods f k = .ok (v, tr, k') →
       ∃ rolls2 kv k2,
         rolls_and_kept count sides dt mods f k
           = .ok (rolls2, some kv, k2) ∧
         _apply_keep_drop rolls2 ks = .ok kv ∧
         v = (kv.countP (fun x => _check_condition x comp) : Int) ∧
         ∀ x ∈ kv, x ∈ rolls2.map dieTotal) := by
  constructor
  · intro count sides dt mods f k comp v tr k' hc hkeep h
    unfold _eval_dice at h
    rcases hrk : rolls_and_kept count sides dt mods f k
      with e | ⟨rolls2, kept, k2⟩
    · rw [hrk] at h
      exact absurd h (by simp)
    · obtain rfl : kept = none :=
        (rolls_and_kept_keep count sides dt mods f k rolls2 kept k2
          hrk).1 hkeep
      simp only [hrk] at h
      simp only [hc] at h
      rcases hcs : _count_successes (applySortRolls mods.sort rolls2)
        comp none with ⟨marked, succs⟩
      simp only [hcs] at h
      have hinj := Except.ok.inj h
      rw [Prod.mk.injEq, Prod.mk.injEq] at hinj
      obtain ⟨hv, htr, hk⟩ := hinj
      have hcc := _count_successes_count (applySortRolls mods.sort rolls2)
        comp none
      rw [hcs] at hcc
      have hmv := _count_successes_map_value
        (applySortRolls mods.sort rolls2) comp none
      rw [hcs] at hmv
      subst hv
      rw [← htr]
      dsimp only
      rw [hmv]
      exact hcc
  · intro count sides dt mods f k comp ks v tr k' hc hkeep h
    unfold _eval_dice at h
    rcases hrk : rolls_and_kept count sides dt mods f k
      with e | ⟨rolls2, kept, k2⟩
    · rw [hrk] at h
      exact absurd h (by simp)
    · obtain ⟨kv, hkv, hkd⟩ :=
        (rolls_and_kept_keep count sides dt mods f k rolls2 kept k2
          hrk).2 ks hkeep
      subst hkv
      simp only [hrk] at h
      simp only [hc] at h
      rcases hcs : _count_successes (applySortRolls mods.sort rolls2)
        comp (some kv) with ⟨marked, succs⟩
      simp only [hcs] at h
      have hinj := Except.ok.inj h
      rw [Prod.mk.injEq, Prod.mk.injEq] at hinj
      obtain ⟨hv, htr, hk⟩ := hinj
      refine ⟨rolls2, kv, k2, rfl, hkd, ?_, ?_⟩
      · have hcc := _count_successes_count
          (applySortRolls mods.sort rolls2) comp (some kv)
        rw [hcs] at hcc
        rw [← hv]
        exact hcc
      · exact _apply_keep_drop_subset rolls2 ks kv hkd

theorem C10_witness :
    _eval_dice 1 2 .dStd
      { reroll := none,
        explode := some { penetrating := false, compound := false, cond := { op := .ceq, value := none } },
        keep := none, sort := none,
        comparator := some { op := .cge, value := some 3 } }
      twoThenOneStream 0
      = .ok (0,
          { term := ['1', 'd', '2', '!', '2', '>', '=', '3'],
            rolls := [{ value := 2, rerolls := [], explodes := [1], success := some false }],
            keptValues := none, sum := none,
            threshold := some ['>', '=', '3'], successes := some 0 },
          2) ∧
    (0 : Int) = ((([{ value := 2, rerolls := [], explodes := [1], success := some false }] : List DieRoll).map
        (fun r : DieRoll => r.value)).countP
        (fun x => _check_condition x { op := CompOp.cge, value := some 3 }) : Int) ∧
    dieTotal { value := 2, rerolls := [], explodes := [1], success := some false } = 3 :=
  ⟨by decide,
   C10_success_pool.1 1 2 .dStd
     { reroll := none,
       explode := some { penetrating := false, compound := false, cond := { op := .ceq, value := none } },
       keep := none, sort := none,
       comparator := some { op := .cge, value := some 3 } }
     twoThenOneStream 0 { op := .cge, value := some 3 } 0
     { term := ['1', 'd', '2', '!', '2', '>', '=', '3'],
       rolls := [{ value := 2, rerolls := [], explodes := [1], success := some false }],
       keptValues := none, sum := none,
       threshold := some ['>', '=', '3'], successes := some 0 }
     2 rfl rfl (by decide),
   by decide⟩

/-! ## C7: which text and position error reports carry -/

theorem mem_of_getElemOpt {α : Type} {l : List α} {n : Nat} {a : α}
    (h : l[n]? = some a) : a ∈ l := by
  have hlt := getElem?_some_lt h
  have hget : l[n] = a := by
    rw [List.getElem?_eq_getElem hlt] at h
    exact Option.some.inj h
  rw [← hget]
  exact l.getElem_mem hlt

/-- Parse errors issued by `parse_condition` carry the stripped text and
a position within it. -/
theorem parse_condition_err (txt : List Char) (ts : List Token)
    (pos : Nat) (dOp : CompOp) (dVal : Option Int) (e : DiceErr)
    (hts : ∀ t ∈ ts, t.pos ≤ txt.length)
    (h : parse_condition txt ts pos dOp dVal = .error e) :
    ∀ msg p i, e = .parseE msg p i → i = txt ∧ p ≤ txt.length := by
  intro msg p i heq
  subst heq
  unfold parse_condition at h
  rcases htk : ts[pos]? with _ | tk
  · rw [htk] at h
    exact absurd h (by simp)
  · simp only [htk] at h
    split at h
    · rcases htk2 : ts[pos + 1]? with _ | tk2
      · simp only [htk2] at h
        obtain ⟨hm, hp, hi⟩ := DiceErr.parseE.inj (Except.error.inj h)
        refine ⟨hi.symm, ?_⟩
        rw [← hp]
      · simp only [htk2] at h
        split at h
        · exact absurd h (by simp)
        · obtain ⟨hm, hp, hi⟩ := DiceErr.parseE.inj (Except.error.inj h)
          refine ⟨hi.symm, ?_⟩
          rw [← hp]
          exact hts tk2 (mem_of_getElemOpt htk2)
    · split at h
      · exact absurd h (by simp)
      · exact absurd h (by simp)

/-- Parse errors issued by the modifier loop carry the stripped text and
a position within it. -/
theorem parse_dice_modifiers_err (txt : List Char) (ts : List Token)
    (hts : ∀ t ∈ ts, t.pos ≤ txt.length) :
    ∀ (fuel pos : Nat) (mods : Mods) (e : DiceErr),
      parse_dice_modifiers txt ts fuel pos mods = .error e →
      ∀ msg p i, e = .parseE msg p i → i = txt ∧ p ≤ txt.length := by
  intro fuel
  induction fuel with
  | zero =>
    intro pos mods e h
    simp [parse_dice_modifiers] at h
  | succ fuel ih =>
    intro pos mods e h msg p i heq
    subst heq
    simp only [parse_dice_modifiers] at h
    rcases htk : ts[pos]? with _ | tk
    · simp only [htk] at h
      exact absurd h (by simp)
    · simp only [htk] at h
      split at h
      · rcases hpc : parse_condition txt ts (pos + 1) .ceq (some 1)
          with e1 | ⟨cond, pp⟩
        · simp only [hpc] at h
          exact parse_condition_err txt ts (pos + 1) .ceq (some 1) e1 hts
            hpc msg p i (Except.error.inj h)
        · simp only [hpc] at h
          exact ih pp _ _ h msg p i rfl
      · split at h
        · rcases hpc : parse_condition txt ts (pos + 1) .cge none
            with e1 | ⟨cond, pp⟩
          · simp only [hpc] at h
            exact parse_condition_err txt ts (pos + 1) .cge none e1 hts
              hpc msg p i (Except.error.inj h)
          · simp only [hpc] at h
            exact ih pp _ _ h msg p i rfl
        · split at h
          · rcases htk2 : ts[pos + 1]? with _ | tk2
            · simp only [htk2] at h
              obtain ⟨hm, hp, hi⟩ := DiceErr.parseE.inj (Except.error.inj h)
              refine ⟨hi.symm, ?_⟩
              rw [← hp]
            · simp only [htk2] at h
              split at h
              · exact ih (pos + 2) _ _ h msg p i rfl
              · obtain ⟨hm, hp, hi⟩ :=
                  DiceErr.parseE.inj (Except.error.inj h)
                refine ⟨hi.symm, ?_⟩
                rw [← hp]
                exact hts tk2 (mem_of_getElemOpt htk2)
          · split at h
            · exact ih (pos + 1) _ _ h msg p i rfl
            · split at h
              · rcases htk2 : ts[pos + 1]? with _ | tk2
                · simp only [htk2] at h
                  obtain ⟨hm, hp, hi⟩ :=
                    DiceErr.parseE.inj (Except.error.inj h)
                  refine ⟨hi.symm, ?_⟩
                  rw [← hp]
                · simp only [htk2] at h
                  split at h
                  · exact absurd h (by simp)
                  · obtain ⟨hm, hp, hi⟩ :=
                      DiceErr.parseE.inj (Except.error.inj h)
                    refine ⟨hi.symm, ?_⟩
                    rw [← hp]
                    exact hts tk2 (mem_of_getElemOpt htk2)
              · exact absurd h (by simp)

/-- Parse errors issued by `parse_dice_tail` carry the stripped text and
a position within it. -/
theorem parse_dice_tail_err (txt : List Char) (ts : List Token)
    (hts : ∀ t ∈ ts, t.pos ≤ txt.length) (fuel countN dpos : Nat)
    (e : DiceErr) (h : parse_dice_tail txt ts fuel countN dpos = .error e) :
    ∀ msg p i, e = .parseE msg p i → i = txt ∧ p ≤ txt.length := by
  intro msg p i heq
  subst heq
  unfold parse_dice_tail at h
  rcases htk : ts[dpos]? with _ | dieTk
  · simp only [htk] at h
    obtain ⟨hm, hp, hi⟩ := DiceErr.parseE.inj (Except.error.inj h)
    refine ⟨hi.symm, ?_⟩
    rw [← hp]
  · simp only [htk] at h
    split at h
    · split at h
      · rename_i e1 heq
        obtain rfl := Except.error.inj h
        split at heq
        · exact absurd heq (by simp)
        · split at heq
          · exact absurd heq (by simp)
          · split at heq
            · exact absurd heq (by simp)
            · obtain ⟨hm, hp, hi⟩ := DiceErr.parseE.inj (Except.error.inj heq)
              refine ⟨hi.symm, ?_⟩
              rw [← hp]
              exact hts dieTk (mem_of_getElemOpt htk)
      · split at h
        · exact absurd (Except.error.inj h) (by simp)
        · split at h
          · exact absurd (Except.error.inj h) (by simp)
          · split at h
            · exact absurd (Except.error.inj h) (by simp)
            · split at h
              · exact absurd (Except.error.inj h) (by simp)
              · rcases hpm : parse_dice_modifiers txt ts fuel (dpos + 1)
                  initMods with e1 | ⟨mods, pp⟩
                · simp only [hpm] at h
                  exact parse_dice_modifiers_err txt ts hts fuel (dpos + 1)
                    initMods e1 hpm msg p i (Except.error.inj h)
                · simp only [hpm] at h
                  exact absurd h (by simp)
    · obtain ⟨hm, hp, hi⟩ := DiceErr.parseE.inj (Except.error.inj h)
      refine ⟨hi.symm, ?_⟩
      rw [← hp]
      exact hts dieTk (mem_of_getElemOpt htk)

/-- Parse errors issued by `parse_dice` carry the stripped text and a
position within it. -/
theorem parse_dice_err (txt : List Char) (ts : List Token)
    (hts : ∀ t ∈ ts, t.pos ≤ txt.length) (fuel pos : Nat) (e : DiceErr)
    (h : parse_dice txt ts fuel pos = .error e) :
    ∀ msg p i, e = .parseE msg p i → i = txt ∧ p ≤ txt.length := by
  unfold parse_dice at h
  rcases htk : ts[pos]? with _ | tk
  · simp only [htk] at h
    exact parse_dice_tail_err txt ts hts fuel 1 pos e h
  · simp only [htk] at h
    split at h
    · exact parse_dice_tail_err txt ts hts fuel (natOfDigits tk.text)
        (pos + 1) e h
    · exact parse_dice_tail_err txt ts hts fuel 1 pos e h

/-- Parse errors issued by `parse_primary` carry the stripped text and a
position within it. -/
theorem parse_primary_err (txt : List Char) (ts : List Token)
    (hts : ∀ t ∈ ts, t.pos ≤ txt.length) (fuel pos : Nat) (e : DiceErr)
    (h : parse_primary txt ts fuel pos = .error e) :
    ∀ msg p i, e = .parseE msg p i → i = txt ∧ p ≤ txt.length := by
  intro msg p i heq
  subst heq
  unfold parse_primary at h
  rcases htk : ts[pos]? with _ | tk
  · simp only [htk] at h
    obtain ⟨hm, hp, hi⟩ := DiceErr.parseE.inj (Except.error.inj h)
    refine ⟨hi.symm, ?_⟩
    rw [← hp]
  · simp only [htk] at h
    split at h
    · exact parse_dice_err txt ts hts fuel pos _ h msg p i rfl
    · split at h
      · exact absurd h (by simp)
      · obtain ⟨hm, hp, hi⟩ := DiceErr.parseE.inj (Except.error.inj h)
        refine ⟨hi.symm, ?_⟩
        rw [← hp]
        exact hts tk (mem_of_getElemOpt htk)

/-- Parse errors issued by the mutual expression/term/factor descent
carry the stripped text and a position within it. -/
theorem parser_mutual_err (txt : List Char) (ts : List Token)
    (hts : ∀ t ∈ ts, t.pos ≤ txt.length) :
    ∀ fuel : Nat,
      (∀ (pos depth : Nat) (e : DiceErr),
        parse_expression txt ts fuel pos depth = .error e →
        ∀ msg p i, e = .parseE msg p i → i = txt ∧ p ≤ txt.length) ∧
      (∀ (left : Ast) (pos depth : Nat) (e : DiceErr),
        parse_expr_loop txt ts fuel left pos depth = .error e →
        ∀ msg p i, e = .parseE msg p i → i = txt ∧ p ≤ txt.length) ∧
      (∀ (pos depth : Nat) (e : DiceErr),
        parse_term txt ts fuel pos depth = .error e →
        ∀ msg p i, e = .parseE msg p i → i = txt ∧ p ≤ txt.length) ∧
      (∀ (left : Ast) (pos depth : Nat) (e : DiceErr),
        parse_term_loop txt ts fuel left pos depth = .error e →
        ∀ msg p i, e = .parseE msg p i → i = txt ∧ p ≤ txt.length) ∧
      (∀ (pos depth : Nat) (e : DiceErr),
        parse_factor txt ts fuel pos depth = .error e →
        ∀ msg p i, e = .parseE msg p i → i = txt ∧ p ≤ txt.length) := by
  intro fuel
  induction fuel with
  | zero =>
    have hfe : ∀ (e : DiceErr), fuelError txt = e →
        ∀ msg p i, e = .parseE msg p i → i = txt ∧ p ≤ txt.length := by
      intro e he msg p i heq
      subst heq
      unfold fuelError at he
      obtain ⟨hm, hp, hi⟩ := DiceErr.parseE.inj he
      refine ⟨hi.symm, ?_⟩
      rw [← hp]
    refine ⟨?_, ?_, ?_, ?_, ?_⟩
    · intro pos depth e h
      exact hfe e (Except.error.inj h)
    · intro left pos depth e h
      exact hfe e (Except.error.inj h)
    · intro pos depth e h
      exact hfe e (Except.error.inj h)
    · intro left pos depth e h
      exact hfe e (Except.error.inj h)
    · intro pos depth e h
      exact hfe e (Except.error.inj h)
  | succ fuel ih =>
    obtain ⟨ihE, ihEL, ihT, ihTL, ihF⟩ := ih
    have hterm : ∀ (pos depth : Nat) (e : DiceErr),
        parse_term txt ts (fuel + 1) pos depth = .error e →
        ∀ msg p i, e = .parseE msg p i → i = txt ∧ p ≤ txt.length := by
      intro pos depth e h
      simp only [parse_term] at h
      rcases hpf : parse_factor txt ts fuel pos depth with e1 | ⟨left, p1⟩
      · simp only [hpf] at h
        obtain rfl := Except.error.inj h
        exact ihF pos depth e1 hpf
      · simp only [hpf] at h
        exact ihTL left p1 depth e h
    have htermloop : ∀ (left : Ast) (pos depth : Nat) (e : DiceErr),
        parse_term_loop txt ts (fuel + 1) left pos depth = .error e →
        ∀ msg p i, e = .parseE msg p i → i = txt ∧ p ≤ txt.length := by
      intro left pos depth e h
      simp only [parse_term_loop] at h
      rcases htk : ts[pos]? with _ | tk
      · simp only [htk] at h
        exact absurd h (by simp)
      · simp only [htk] at h
        split at h
        · rcases hpf : parse_factor txt ts fuel (pos + 1) depth
            with e1 | ⟨right, p1⟩
          · simp only [hpf] at h
            obtain rfl := Except.error.inj h
            exact ihF (pos + 1) depth e1 hpf
          · simp only [hpf] at h
            exact ihTL _ p1 depth e h
        · exact absurd h (by simp)
    have hexpr : ∀ (pos depth : Nat) (e : DiceErr),
        parse_expression txt ts (fuel + 1) pos depth = .error e →
        ∀ msg p i, e = .parseE msg p i → i = txt ∧ p ≤ txt.length := by
      intro pos depth e h
      simp only [parse_expression] at h
      rcases hpt : parse_term txt ts fuel pos depth with e1 | ⟨left, p1⟩
      · simp only [hpt] at h
        obtain rfl := Except.error.inj h
        exact ihT pos depth e1 hpt
      · simp only [hpt] at h
        exact ihEL left p1 depth e h
    have hexprloop : ∀ (left : Ast) (pos depth : Nat) (e : DiceErr),
        parse_expr_loop txt ts (fuel + 1) left pos depth = .error e →
        ∀ msg p i, e = .parseE msg p i → i = txt ∧ p ≤ txt.length := by
      intro left pos depth e h
      simp only [parse_expr_loop] at h
      rcases htk : ts[pos]? with _ | tk
      · simp only [htk] at h
        exact absurd h (by simp)
      · simp only [htk] at h
        split at h
        · rcases hpt : parse_term txt ts fuel (pos + 1) depth
            with e1 | ⟨right, p1⟩
          · simp only [hpt] at h
            obtain rfl := Except.error.inj h
            exact ihT (pos + 1) depth e1 hpt
          · simp only [hpt] at h
            exact ihEL _ p1 depth e h
        · exact absurd h (by simp)
    have hfactor : ∀ (pos depth : Nat) (e : DiceErr),
        parse_factor txt ts (fuel + 1) pos depth = .error e →
        ∀ msg p i, e = .parseE msg p i → i = txt ∧ p ≤ txt.length := by
      intro pos depth e h
      simp only [parse_factor] at h
      rcases htk : ts[pos]? with _ | tk
      · simp only [htk] at h
        exact parse_primary_err txt ts hts fuel pos e h
      · simp only [htk] at h
        split at h
        · rcases hpf : parse_factor txt ts fuel (pos + 1) depth
            with e1 | ⟨operand, p1⟩
          · simp only [hpf] at h
            obtain rfl := Except.error.inj h
            exact ihF (pos + 1) depth e1 hpf
          · simp only [hpf] at h
            exact absurd h (by simp)
        · split at h
          · split at h
            · intro msg p i heq
              subst heq
              exact absurd (Except.error.inj h) (by simp)
            · rcases hpe : parse_expression txt ts fuel (pos + 1)
                (depth + 1) with e1 | ⟨expr, p1⟩
              · simp only [hpe] at h
                obtain rfl := Except.error.inj h
                exact ihE (pos + 1) (depth + 1) e1 hpe
              · simp only [hpe] at h
                rcases htk2 : ts[p1]? with _ | tk2
                · simp only [htk2] at h
                  intro msg p i heq
                  subst heq
                  obtain ⟨hm, hp, hi⟩ :=
                    DiceErr.parseE.inj (Except.error.inj h)
                  refine ⟨hi.symm, ?_⟩
                  rw [← hp]
                · simp only [htk2] at h
                  split at h
                  · exact absurd h (by simp)
                  · intro msg p i heq
                    subst heq
                    obtain ⟨hm, hp, hi⟩ :=
                      DiceErr.parseE.inj (Except.error.inj h)
                    refine ⟨hi.symm, ?_⟩
                    rw [← hp]
                    exact hts tk2 (mem_of_getElemOpt htk2)
          · exact parse_primary_err txt ts hts fuel pos e h
    exact ⟨hexpr, hexprloop, hterm, htermloop, hfactor⟩

/-- Every parse error produced by `parse` carries the STRIPPED input
text and a position bounded by its length. -/
theorem parse_err (input : List Char) (e : DiceErr)
    (h : parse input = .error e) :
    ∀ msg p i, e = .parseE msg p i →
      i = pyStrip input ∧ p ≤ (pyStrip input).length := by
  have hts : ∀ t ∈ tokenizeLoop (pyStrip input).length (pyStrip input) 0,
      t.pos ≤ (pyStrip input).length := by
    intro t ht
    obtain ⟨h1, h2, h3⟩ := tokenizeLoop_bounds (pyStrip input).length
      (pyStrip input) 0 t ht
    have h4 : 1 ≤ t.text.length := List.length_pos.mpr h1
    omega
  simp only [parse] at h
  rcases hts0 : tokenizeLoop (pyStrip input).length (pyStrip input) 0
    with _ | ⟨t0, trest⟩
  · rw [hts0] at h
    intro msg p i heq
    subst heq
    obtain ⟨hm, hp, hi⟩ := DiceErr.parseE.inj (Except.error.inj h).symm
    refine ⟨hi, ?_⟩
    rw [hp]
    exact Nat.zero_le _
  · rw [hts0] at h hts
    simp only at h
    rcases hpe : parse_expression (pyStrip input) (t0 :: trest)
      (16 * ((t0 :: trest).length + 1)) 0 0 with e1 | ⟨ast, p1⟩
    · simp only [hpe] at h
      obtain rfl := (Except.error.inj h).symm
      exact (parser_mutual_err (pyStrip input) (t0 :: trest) hts
        (16 * ((t0 :: trest).length + 1))).1 0 0 _ hpe
    · simp only [hpe] at h
      rcases htk : (t0 :: trest)[p1]? with _ | tk
      · simp only [htk] at h
        exact absurd h (by simp)
      · simp only [htk] at h
        intro msg p i heq
        subst heq
        obtain ⟨hm, hp, hi⟩ := DiceErr.parseE.inj (Except.error.inj h).symm
        refine ⟨hi, ?_⟩
        rw [hp]
        exact hts tk (mem_of_getElemOpt htk)

/-- Reroll enforcement only raises `limitE`. -/
theorem _apply_rerolls_die_no_parse (spec : RerollSpec) (sides : Nat)
    (dt : DieType) (f : Nat → Nat) (r : DieRoll) (k : Nat) (e : DiceErr)
    (h : _apply_rerolls_die spec sides dt f r k = .error e) :
    ∀ msg p i, e ≠ .parseE msg p i := by
  intro msg p i heq
  subst heq
  unfold _apply_rerolls_die at h
  rcases hrl : reroll_loop spec.cond spec.once sides dt f k r.value []
    MAX_REROLLS with ⟨v, hist, k1⟩
  simp only [hrl] at h
  split at h
  · exact absurd (Except.error.inj h) (by simp)
  · exact absurd h (by simp)

theorem _apply_rerolls_no_parse (spec : RerollSpec) (sides : Nat)
    (dt : DieType) (f : Nat → Nat) :
    ∀ (rolls : List DieRoll) (k : Nat) (e : DiceErr),
      _apply_rerolls spec sides dt f rolls k = .error e →
      ∀ msg p i, e ≠ .parseE msg p i := by
  intro rolls
  induction rolls with
  | nil =>
    intro k e h
    simp [_apply_rerolls] at h
  | cons r rest ih =>
    intro k e h
    simp only [_apply_rerolls] at h
    rcases hd : _apply_rerolls_die spec sides dt f r k with e1 | ⟨r1, k1⟩
    · simp only [hd] at h
      obtain rfl := Except.error.inj h
      exact _apply_rerolls_die_no_parse spec sides dt f r k _ hd
    · simp only [hd] at h
      rcases hrest : _apply_rerolls spec sides dt f rest k1
        with e1 | ⟨rest1, k2⟩
      · simp only [hrest] at h
        obtain rfl := Except.error.inj h
        exact ih k1 _ hrest
      · simp only [hrest] at h
        exact absurd h (by simp)

/-- Explosion enforcement only raises `limitE`. -/
theorem _apply_explosions_die_no_parse (cond : Cond) (pen : Bool)
    (sides : Nat) (dt : DieType) (f : Nat → Nat) (r : DieRoll) (k : Nat)
    (e : DiceErr)
    (h : _apply_explosions_die cond pen sides dt f r k = .error e) :
    ∀ msg p i, e ≠ .parseE msg p i := by
  intro msg p i heq
  subst heq
  unfold _apply_explosions_die at h
  rcases hel : explode_loop cond pen sides dt f k r.value [] MAX_EXPLOSIONS
    with ⟨acc, k1⟩
  simp only [hel] at h
  split at h
  · exact absurd (Except.error.inj h) (by simp)
  · exact absurd h (by simp)

theorem _apply_explosions_list_no_parse (cond : Cond) (pen : Bool)
    (sides : Nat) (dt : DieType) (f : Nat → Nat) :
    ∀ (rolls : List DieRoll) (k : Nat) (e : DiceErr),
      _apply_explosions_list cond pen sides dt f rolls k = .error e →
      ∀ msg p i, e ≠ .parseE msg p i := by
  intro rolls
  induction rolls with
  | nil =>
    intro k e h
    simp [_apply_explosions_list] at h
  | cons r rest ih =>
    intro k e h
    simp only [_apply_explosions_list] at h
    rcases hd : _apply_explosions_die cond pen sides dt f r k
      with e1 | ⟨r1, k1⟩
    · simp only [hd] at h
      obtain rfl := Except.error.inj h
      exact _apply_explosions_die_no_parse cond pen sides dt f r k _ hd
    · simp only [hd] at h
      rcases hrest : _apply_explosions_list cond pen sides dt f rest k1
        with e1 | ⟨rest1, k2⟩
      · simp only [hrest] at h
        obtain rfl := Except.error.inj h
        exact ih k1 _ hrest
      · simp only [hrest] at h
        exact absurd h (by simp)

/-- Keep/drop validation only raises `semanticE`. -/
theorem _apply_keep_drop_no_parse (rolls : List DieRoll) (spec : KeepSpec)
    (e : DiceErr) (h : _apply_keep_drop rolls spec = .error e) :
    ∀ msg p i, e ≠ .parseE msg p i := by
  intro msg p i heq
  subst heq
  unfold _apply_keep_drop at h
  by_cases hlen : (rolls.map dieTotal).length < spec.count
  · rw [if_pos hlen] at h
    exact absurd (Except.error.inj h) (by simp)
  · rw [if_neg hlen] at h
    rcases hkt : spec.ktype with _ | _ | _ | _ <;> simp only [hkt] at h <;>
      exact absurd h (by simp)

/-- Errors from the roll/reroll/explode/keep pipeline are never parse
errors. -/
theorem rolls_and_kept_no_parse (count sides : Nat) (dt : DieType)
    (mods : Mods) (f : Nat → Nat) (k : Nat) (e : DiceErr)
    (h : rolls_and_kept count sides dt mods f k = .error e) :
    ∀ msg p i, e ≠ .parseE msg p i := by
  unfold rolls_and_kept at h
  rcases hr0 : rollN sides dt f k count with ⟨rolls0, k0⟩
  simp only [hr0] at h
  rcases hstep1 : (match mods.reroll with
      | some spec => _apply_rerolls spec sides dt f rolls0 k0
      | none => .ok (rolls0, k0)) with e1 | ⟨rolls1, k1⟩
  · simp only [hstep1] at h
    obtain rfl := Except.error.inj h
    rcases hmr : mods.reroll with _ | spec
    · rw [hmr] at hstep1
      exact absurd hstep1 (by simp)
    · rw [hmr] at hstep1
      exact _apply_rerolls_no_parse spec sides dt f rolls0 k0 _ hstep1
  · simp only [hstep1] at h
    rcases hstep2 : (match mods.explode with
        | some spec => _apply_explosions spec sides dt f rolls1 k1
        | none => .ok (rolls1, k1)) with e1 | ⟨rolls2, k2⟩
    · simp only [hstep2] at h
      obtain rfl := Except.error.inj h
      rcases hme : mods.explode with _ | spec
      · rw [hme] at hstep2
        exact absurd hstep2 (by simp)
      · rw [hme] at hstep2
        exact _apply_explosions_list_no_parse
          (resolveCond spec.cond sides dt) spec.penetrating sides dt f
          rolls1 k1 _ hstep2
    · simp only [hstep2] at h
      rcases hmk : mods.keep with _ | ks
      · simp only [hmk] at h
        exact absurd h (by simp)
      · simp only [hmk] at h
        rcases hkd : _apply_keep_drop rolls2 ks with e1 | kv
        · simp only [hkd] at h
          obtain rfl := Except.error.inj h
          exact _apply_keep_drop_no_parse rolls2 ks _ hkd
        · simp only [hkd] at h
          exact absurd h (by simp)

theorem _eval_dice_no_parse (count sides : Nat) (dt : DieType)
    (mods : Mods) (f : Nat → Nat) (k : Nat) (e : DiceErr)
    (h : _eval_dice count sides dt mods f k = .error e) :
    ∀ msg p i, e ≠ .parseE msg p i := by
  unfold _eval_dice at h
  rcases hrk : rolls_and_kept count sides dt mods f k
    with e1 | ⟨rolls2, kept, k2⟩
  · simp only [hrk] at h
    obtain rfl := Except.error.inj h
    exact rolls_and_kept_no_parse count sides dt mods f k _ hrk
  · simp only [hrk] at h
    rcases hc : mods.comparator with _ | comp
    · simp only [hc] at h
      rcases kept with _ | kv
      · exact absurd h (by simp)
      · exact absurd h (by simp)
    · simp only [hc] at h
      rcases hcs : _count_successes (applySortRolls mods.sort rolls2)
        comp kept with ⟨marked, succs⟩
      simp only [hcs] at h
      exact absurd h (by simp)

/-- Errors raised during evaluation are never parse errors. -/
theorem _eval_node_no_parse (f : Nat → Nat) :
    ∀ (ast : Ast) (k : Nat) (traces : List DiceTrace) (e : DiceErr),
      _eval_node f ast k traces = .error e →
      ∀ msg p i, e ≠ .parseE msg p i := by
  intro ast
  induction ast with
  | number n =>
    intro k traces e h
    simp [_eval_node] at h
  | binaryOp op l r ihl ihr =>
    intro k traces e h
    simp only [_eval_node] at h
    rcases hl : _eval_node f l k traces with e1 | ⟨lv, k1, tr1⟩
    · simp only [hl] at h
      obtain rfl := Except.error.inj h
      exact ihl k traces _ hl
    · simp only [hl] at h
      rcases hr : _eval_node f r k1 tr1 with e1 | ⟨rv, k2, tr2⟩
      · simp only [hr] at h
        obtain rfl := Except.error.inj h
        exact ihr k1 tr1 _ hr
      · simp only [hr] at h
        rcases op with _ | _ | _ | _
        · exact absurd h (by simp)
        · exact absurd h (by simp)
        · exact absurd h (by simp)
        · simp only at h
          split at h
          · intro msg p i heq
            subst heq
            exact absurd (Except.error.inj h) (by simp)
          · exact absurd h (by simp)
  | negOp a iha =>
    intro k traces e h
    simp only [_eval_node] at h
    rcases ha : _eval_node f a k traces with e1 | ⟨v, k1, tr1⟩
    · simp only [ha] at h
      obtain rfl := Except.error.inj h
      exact iha k traces _ ha
    · simp only [ha] at h
      exact absurd h (by simp)
  | dice count sides dt mods =>
    intro k traces e h
    simp only [_eval_node] at h
    rcases hd : _eval_dice count sides dt mods f k with e1 | ⟨v, tr, k1⟩
    · simp only [hd] at h
      obtain rfl := Except.error.inj h
      exact _eval_dice_no_parse count sides dt mods f k _ hd
    · simp only [hd] at h
      exact absurd h (by simp)

/-- C7 counterexample to the spec wording that error reports echo the
original expression text: for `" 1+ "` the reported `input` is the
STRIPPED text `"1+"`, not the original, and the position refers to the
stripped text. -/
theorem C7_counterexample :
    (roll_dice " 1+ " constZeroStream).error =
      some { type := "ParseError",
             message := "Unexpected end of expression",
             position := some 2, input := ['1', '+'] } ∧
    ['1', '+'] ≠ " 1+ ".data := by
  decide

/-- C7 (amended): every error report from `roll_dice` carries the
failing expression and, for parse errors, a character position — but a
ParseError carries the WHITESPACE-STRIPPED expression text with a
position bounded by the stripped length, while all other error kinds
(semantic, limit, dice) carry the original text and no position. -/
theorem C7_error_reporting :
    ∀ (expr : String) (f : Nat → Nat) (e : ErrorInfo),
      (roll_dice expr f).error = some e →
      (e.type = "ParseError" →
        e.input = pyStrip expr.data ∧
        ∃ p, e.position = some p ∧ p ≤ (pyStrip expr.data).length) ∧
      (e.type ≠ "ParseError" →
        e.input = expr.data ∧ e.position = none) := by
  intro expr f e he
  unfold roll_dice at he
  rcases hrp : run_pipeline expr f with de | ⟨res, kk, traces⟩
  · simp only [hrp] at he
    obtain rfl := Option.some.inj he
    rcases de with ⟨msg, p0, i0⟩ | m | m | m
    · constructor
      · intro _
        have hsrc : parse expr.data = .error (.parseE msg p0 i0) := by
          unfold run_pipeline at hrp
          rcases hp : parse expr.data with pe | ast
          · simp only [hp] at hrp
            obtain rfl := Except.error.inj hrp
            rfl
          · simp only [hp] at hrp
            exact absurd rfl (_eval_node_no_parse f ast 0 [] _ hrp msg p0 i0)
        have hwf := parse_err expr.data _ hsrc msg p0 i0 rfl
        exact ⟨hwf.1, p0, rfl, hwf.2⟩
      · intro hne
        exact absurd rfl hne
    · exact ⟨fun hc => absurd hc (by simp [errorResult]), fun _ => ⟨rfl, rfl⟩⟩
    · exact ⟨fun hc => absurd hc (by simp [errorResult]), fun _ => ⟨rfl, rfl⟩⟩
    · exact ⟨fun hc => absurd hc (by simp [errorResult]), fun _ => ⟨rfl, rfl⟩⟩
  · simp only [hrp] at he
    exact absurd he (by simp)

theorem C7_witness :
    (roll_dice " 1+ " constZeroStream).error =
      some { type := "ParseError",
             message := "Unexpected end of expression",
             position := some 2, input := ['1', '+'] } ∧
    (({ type := "ParseError", message := "Unexpected end of expression",
        position := some 2, input := ['1', '+'] } : ErrorInfo).type
          = "ParseError" →
      ({ type := "ParseError", message := "Unexpected end of expression",
         position := some 2, input := ['1', '+'] } : ErrorInfo).input
           = pyStrip " 1+ ".data ∧
      ∃ p, ({ type := "ParseError",
              message := "Unexpected end of expression",
              position := some 2, input := ['1', '+'] }
            : ErrorInfo).position = some p ∧
        p ≤ (pyStrip " 1+ ".data).length) ∧
    (({ type := "ParseError", message := "Unexpected end of expression",
        position := some 2, input := ['1', '+'] } : ErrorInfo).type
          ≠ "ParseError" →
      ({ type := "ParseError", message := "Unexpected end of expression",
         position := some 2, input := ['1', '+'] } : ErrorInfo).input
           = " 1+ ".data ∧
      ({ type := "ParseError", message := "Unexpected end of expression",
         position := some 2, input := ['1', '+'] }
       : ErrorInfo).position = none) :=
  ⟨by decide,
   C7_error_reporting " 1+ " constZeroStream
     { type := "ParseError", message := "Unexpected end of expression",
       position := some 2, input := ['1', '+'] } (by decide)⟩
